import Mathlib

/-!
Verification of the orchestration core of the ODI multi-agent framework.

The development shallowly embeds the Python sources:
- `src/dependency/dependency_resolver.py` (`DependencyResolver.resolve`),
- `src/registry/agent_registry.py` (`AgentRegistry`),
- `src/agents/base_agent.py` (`BaseAgent`),
- `src/llm/llm_service.py` (`LLMService.reason_as_agent`),
- `src/memory/memory_manager.py` and `src/memory/vector_store.py`,
- `src/orchestrator/meta_orchestrator.py` (`MetaOrchestrator.execute`),
- `src/api/main.py` (the SSE producer/consumer pair).

Python sets iterate in an unspecified (hash) order; wherever the source
iterates over the set `all_agents`, the embedding takes that iteration
order as an explicit parameter `setOrder`, constrained to be a
permutation of the distinct names.  Machine-level effects (logging,
network transport) are dropped; every externally visible effect of the
pipeline is recorded in an explicit action trace.
-/

deriving instance DecidableEq for Except

namespace ODI

/-- A work specification as produced by `LLMService.analyze_scenario`:
the four keys `name`, `role`, `responsibilities`, `dependencies` of the
agent-config dictionaries consumed by the resolver and the factory. -/
structure WorkSpec where
  name : String
  role : String
  responsibilities : List String
  dependencies : List String
deriving DecidableEq

/-- The distinct agent names of a config list in first-appearance order:
the membership set of `all_agents = {cfg["name"] for cfg in agent_configs}`. -/
def namesOf (configs : List WorkSpec) : List String :=
  (configs.map WorkSpec.name).dedup

/-- The in-set dependency edges `(dep, dependent)` in construction order,
mirroring the loop that performs `graph[dep].append(agent_name)` and
`in_degree[agent_name] += 1`: only dependencies whose target name is in
the agent set contribute; dangling names are skipped with a warning. -/
def inSetEdges (configs : List WorkSpec) (names : List String) : List (String × String) :=
  configs.flatMap fun cfg =>
    (cfg.dependencies.filter fun d => decide (d ∈ names)).map fun d => (d, cfg.name)

/-- Initial in-degree of a name: the number of in-set dependency edges
pointing at it, exactly as accumulated in the `in_degree` dictionary. -/
def deg0 (E : List (String × String)) (n : String) : Int :=
  (E.countP fun e => decide (e.2 = n) : Nat)

/-- Adjacency list of a name: the dependents recorded under `graph[c]`,
in insertion order. -/
def adjOf (E : List (String × String)) (c : String) : List String :=
  (E.filter fun e => decide (e.1 = c)).map Prod.snd

/-- The effect of `in_degree[neighbor] -= 1` on the degree map. -/
def updDeg (deg : String → Int) (nb : String) : String → Int :=
  fun x => if x = nb then deg nb - 1 else deg x

/-- One pass over the dependents of the node just popped: decrement each
dependent in-degree and enqueue it the moment its count reaches zero,
mirroring the inner `for neighbor in graph[current]` loop. -/
def relaxAll : List String → List String → (String → Int) → List String × (String → Int)
  | [], q, deg => (q, deg)
  | nb :: rest, q, deg =>
    relaxAll rest (if deg nb - 1 = 0 then q ++ [nb] else q) (updDeg deg nb)

/-- The Kahn BFS loop (`while queue:`): pop the head, append it to the
execution order, relax its dependents.  `fuel` bounds the number of
iterations; `resolveWith` passes enough fuel that the queue always drains
before the fuel does. -/
def kahnLoop (adj : String → List String) :
    Nat → List String → (String → Int) → List String → List String
  | _, [], _, out => out
  | 0, _ :: _, _, out => out
  | fuel + 1, c :: q, deg, out =>
    let p := relaxAll (adj c) q deg
    kahnLoop adj fuel p.1 p.2 (out ++ [c])

/-- `DependencyResolver.resolve`, parameterised by `setOrder`: the
iteration order of the Python set `all_agents` (an arbitrary permutation
of the distinct names).  Returns the execution order, or the unresolved
names (`all_agents - set(execution_order)`) when a cycle is detected. -/
def resolveWith (configs : List WorkSpec) (setOrder : List String) :
    Except (List String) (List String) :=
  let E := inSetEdges configs setOrder
  let initQ := setOrder.filter fun n => decide (deg0 E n = 0)
  let order := kahnLoop (adjOf E) (setOrder.length + E.length) initQ (deg0 E) []
  if order.length = setOrder.length then Except.ok order
  else Except.error (setOrder.filter fun n => decide (n ∉ order))

/-- `resolve` with the set iteration order fixed to first-appearance
order, one possible behaviour of the Python set. -/
def resolve (configs : List WorkSpec) : Except (List String) (List String) :=
  resolveWith configs (namesOf configs)

/-- The dependency edge relation: `edgeStep E a b` holds when some spec
named `b` declares the in-set dependency `a`. -/
def edgeStep (E : List (String × String)) (a b : String) : Prop := (a, b) ∈ E

/-- Acyclicity of the in-set dependency subgraph: no name reaches itself
through a nonempty chain of dependency edges. -/
def AcyclicE (E : List (String × String)) : Prop :=
  ∀ n, ¬ Relation.TransGen (edgeStep E) n n

/-- A name is on a dependency cycle or downstream of one. -/
def OnOrDownstream (E : List (String × String)) (n : String) : Prop :=
  ∃ m, Relation.TransGen (edgeStep E) m m ∧
    (m = n ∨ Relation.TransGen (edgeStep E) m n)

example : resolve [⟨"A", "r", [], []⟩, ⟨"B", "r", [], ["A"]⟩, ⟨"C", "r", [], ["A", "B"]⟩] =
    Except.ok ["A", "B", "C"] := by rfl

example : resolve [⟨"A", "r", [], ["B"]⟩, ⟨"B", "r", [], ["A"]⟩] =
    Except.error ["A", "B"] := by rfl

example : resolve [⟨"A", "r", [], ["X"]⟩, ⟨"B", "r", [], ["A"]⟩] =
    Except.ok ["A", "B"] := by rfl

example : resolve [] = Except.ok [] := by rfl

/-- In-degree over the edges whose source has not yet been processed:
the value held by the `in_degree` dictionary once the sources listed in
`out` have been popped and their dependents decremented. -/
def degSpec (E : List (String × String)) (out : List String) (n : String) : Nat :=
  E.countP fun e => decide (e.2 = n ∧ e.1 ∉ out)

theorem updDeg_self (deg : String → Int) (nb : String) : updDeg deg nb nb = deg nb - 1 := by
  simp [updDeg]

theorem updDeg_ne (deg : String → Int) (nb : String) {x : String} (h : x ≠ nb) :
    updDeg deg nb x = deg x := by
  simp [updDeg, h]

theorem updDeg_ge {nb : String} {rest : List String} {deg : String → Int}
    (hge : ∀ x, ((nb :: rest).count x : Int) ≤ deg x) :
    ∀ y, (rest.count y : Int) ≤ updDeg deg nb y := by
  intro y
  by_cases h : y = nb
  · subst h
    have h1 := hge y
    rw [List.count_cons_self] at h1
    rw [updDeg_self]
    push_cast at h1
    omega
  · have h1 := hge y
    rw [List.count_cons_of_ne h] at h1
    rw [updDeg_ne _ _ h]
    exact h1

theorem relaxAll_deg (nbrs : List String) :
    ∀ (q : List String) (deg : String → Int) (n : String),
      (relaxAll nbrs q deg).2 n = deg n - (nbrs.count n : Int) := by
  induction nbrs with
  | nil => intro q deg n; simp [relaxAll]
  | cons nb rest ih =>
    intro q deg n
    rw [relaxAll, ih]
    by_cases h : n = nb
    · subst h
      rw [updDeg_self, List.count_cons_self]
      push_cast
      ring
    · rw [updDeg_ne _ _ h, List.count_cons_of_ne h]

theorem relaxAll_len (nbrs : List String) :
    ∀ q deg, (relaxAll nbrs q deg).1.length ≤ q.length + nbrs.length := by
  induction nbrs with
  | nil => intro q deg; simp [relaxAll]
  | cons nb rest ih =>
    intro q deg
    rw [relaxAll]
    refine le_trans (ih _ _) ?_
    by_cases h : deg nb - 1 = 0
    · rw [if_pos h]; simp; omega
    · rw [if_neg h]; simp

theorem relaxAll_mem_sub (nbrs : List String) :
    ∀ q deg x, x ∈ (relaxAll nbrs q deg).1 → x ∈ q ∨ x ∈ nbrs := by
  induction nbrs with
  | nil => intro q deg x hx; simp [relaxAll] at hx; exact Or.inl hx
  | cons nb rest ih =>
    intro q deg x hx
    rw [relaxAll] at hx
    rcases ih _ _ _ hx with hq | hr
    · by_cases h : deg nb - 1 = 0
      · rw [if_pos h] at hq
        rcases List.mem_append.mp hq with h1 | h1
        · exact Or.inl h1
        · simp at h1; subst h1; exact Or.inr (List.mem_cons_self _ _)
      · rw [if_neg h] at hq; exact Or.inl hq
    · exact Or.inr (List.mem_cons_of_mem _ hr)

theorem relaxAll_mem_iff (nbrs : List String) :
    ∀ q deg, (∀ x, (nbrs.count x : Int) ≤ deg x) →
      ∀ x, x ∈ (relaxAll nbrs q deg).1 ↔
        x ∈ q ∨ (0 < nbrs.count x ∧ deg x = (nbrs.count x : Int)) := by
  induction nbrs with
  | nil => intro q deg _ x; simp [relaxAll]
  | cons nb rest ih =>
    intro q deg hge x
    rw [relaxAll, ih _ _ (updDeg_ge hge) x]
    by_cases hx : x = nb
    · subst hx
      have h1 := hge x
      rw [List.count_cons_self] at h1 ⊢
      rw [updDeg_self]
      by_cases hd : deg x - 1 = 0
      · rw [if_pos hd]
        have hc : rest.count x = 0 := by push_cast at h1; omega
        constructor
        · intro _
          right
          exact ⟨by omega, by push_cast; omega⟩
        · intro _
          exact Or.inl (List.mem_append.mpr (Or.inr (List.mem_singleton.mpr rfl)))
      · rw [if_neg hd]
        constructor
        · rintro (hq | ⟨h2, h3⟩)
          · exact Or.inl hq
          · right
            exact ⟨by omega, by push_cast at h3 ⊢; omega⟩
        · rintro (hq | ⟨h2, h3⟩)
          · exact Or.inl hq
          · right
            exact ⟨by push_cast at h3 ⊢; omega, by push_cast at h3 ⊢; omega⟩
    · rw [updDeg_ne _ _ hx, List.count_cons_of_ne hx]
      by_cases hd : deg nb - 1 = 0
      · rw [if_pos hd]
        constructor
        · rintro (hq | h2)
          · rcases List.mem_append.mp hq with h1 | h1
            · exact Or.inl h1
            · simp at h1; exact absurd h1 hx
          · exact Or.inr h2
        · rintro (hq | h2)
          · exact Or.inl (List.mem_append.mpr (Or.inl hq))
          · exact Or.inr h2
      · rw [if_neg hd]

theorem relaxAll_zero (nbrs : List String) :
    ∀ q deg, (∀ x, (nbrs.count x : Int) ≤ deg x) → (∀ x ∈ q, deg x = 0) →
      ∀ x ∈ (relaxAll nbrs q deg).1, (relaxAll nbrs q deg).2 x = 0 := by
  induction nbrs with
  | nil =>
    intro q deg _ hqz x hx
    rw [relaxAll] at hx ⊢
    exact hqz x hx
  | cons nb rest ih =>
    intro q deg hge hqz
    rw [relaxAll]
    apply ih _ _ (updDeg_ge hge)
    intro x hx
    by_cases hxnb : x = nb
    · subst hxnb
      rw [updDeg_self]
      by_cases hd : deg x - 1 = 0
      · exact hd
      · rw [if_neg hd] at hx
        have h1 := hge x
        have h0 := hqz x hx
        rw [List.count_cons_self] at h1
        push_cast at h1
        omega
    · rw [updDeg_ne _ _ hxnb]
      by_cases hd : deg nb - 1 = 0
      · rw [if_pos hd] at hx
        rcases List.mem_append.mp hx with h1 | h1
        · exact hqz x h1
        · simp at h1; exact absurd h1 hxnb
      · rw [if_neg hd] at hx
        exact hqz x hx

theorem relaxAll_nodup (nbrs : List String) :
    ∀ q deg, (∀ x, (nbrs.count x : Int) ≤ deg x) → (∀ x ∈ q, deg x = 0) →
      q.Nodup → (relaxAll nbrs q deg).1.Nodup := by
  induction nbrs with
  | nil => intro q deg _ _ hq; rw [relaxAll]; exact hq
  | cons nb rest ih =>
    intro q deg hge hqz hq
    have hnbq : nb ∉ q := by
      intro hmem
      have h1 := hge nb
      have h0 := hqz nb hmem
      rw [List.count_cons_self] at h1
      push_cast at h1
      omega
    rw [relaxAll]
    apply ih _ _ (updDeg_ge hge)
    · intro x hx
      by_cases hxnb : x = nb
      · subst hxnb
        rw [updDeg_self]
        by_cases hd : deg x - 1 = 0
        · exact hd
        · rw [if_neg hd] at hx; exact absurd hx hnbq
      · rw [updDeg_ne _ _ hxnb]
        by_cases hd : deg nb - 1 = 0
        · rw [if_pos hd] at hx
          rcases List.mem_append.mp hx with h1 | h1
          · exact hqz x h1
          · simp at h1; exact absurd h1 hxnb
        · rw [if_neg hd] at hx
          exact hqz x hx
    · by_cases hd : deg nb - 1 = 0
      · rw [if_pos hd]
        exact hq.append (List.nodup_singleton nb)
          (fun x hx hx1 => by simp at hx1; subst hx1; exact hnbq hx)
      · rw [if_neg hd]; exact hq

/-- The edges whose source has not yet been processed. -/
def pendEdges (E : List (String × String)) (out : List String) : Nat :=
  E.countP fun e => decide (e.1 ∉ out)

theorem degSpec_nil (E : List (String × String)) (n : String) :
    deg0 E n = (degSpec E [] n : Int) := by
  unfold deg0 degSpec
  norm_cast
  apply List.countP_congr
  intro e _
  simp

theorem degSpec_pop (E : List (String × String)) (out : List String) (c : String)
    (hc : c ∉ out) (n : String) :
    degSpec E out n = degSpec E (out ++ [c]) n +
      E.countP fun e => decide (e.1 = c ∧ e.2 = n) := by
  unfold degSpec
  induction E with
  | nil => simp
  | cons e E ih =>
    rw [List.countP_cons, List.countP_cons, List.countP_cons, ih]
    simp only [decide_eq_true_eq, List.mem_append, List.mem_singleton]
    split_ifs <;> first | omega | (exfalso; simp_all)

theorem adjOf_length (E : List (String × String)) (c : String) :
    (adjOf E c).length = E.countP fun e => decide (e.1 = c) := by
  unfold adjOf
  rw [List.length_map, ← List.countP_eq_length_filter]

theorem pendEdges_pop (E : List (String × String)) (out : List String) (c : String)
    (hc : c ∉ out) :
    pendEdges E out = pendEdges E (out ++ [c]) + (adjOf E c).length := by
  rw [adjOf_length]
  unfold pendEdges
  induction E with
  | nil => simp
  | cons e E ih =>
    rw [List.countP_cons, List.countP_cons, List.countP_cons, ih]
    simp only [decide_eq_true_eq, List.mem_append, List.mem_singleton]
    split_ifs <;> first | omega | (exfalso; simp_all)

theorem count_adjOf (E : List (String × String)) (c n : String) :
    (adjOf E c).count n = E.countP fun e => decide (e.1 = c ∧ e.2 = n) := by
  unfold adjOf
  rw [List.count_eq_countP, List.countP_map, List.countP_filter]
  apply List.countP_congr
  intro e _
  simp only [Function.comp_apply, beq_iff_eq, Bool.and_eq_true, decide_eq_true_eq]
  tauto

theorem adjOf_mem {E : List (String × String)} {c x : String} (h : x ∈ adjOf E c) :
    (c, x) ∈ E := by
  unfold adjOf at h
  rcases List.mem_map.mp h with ⟨e, he, hx⟩
  rcases List.mem_filter.mp he with ⟨heE, hec⟩
  have h1 : e.1 = c := by simpa using hec
  have : e = (c, x) := by
    rcases e with ⟨a, b⟩
    simp at h1 hx
    simp [h1, hx]
  exact this ▸ heE

/-- The loop invariant of the Kahn BFS: `out` is the order built so far,
`q` the current queue, `deg` the current in-degree map. -/
structure KInv (E : List (String × String)) (names q : List String)
    (deg : String → Int) (out : List String) : Prop where
  nodup : (out ++ q).Nodup
  sub : ∀ x ∈ out ++ q, x ∈ names
  degEq : ∀ n, deg n = (degSpec E out n : Int)
  zero : ∀ x ∈ out ++ q, degSpec E out x = 0
  topo : ∀ e ∈ E, e.2 ∈ out → List.Sublist [e.1, e.2] out
  closure : ∀ n ∈ names, degSpec E out n = 0 → n ∈ out ++ q

theorem kInv_step {E : List (String × String)} {names : List String}
    (hE2 : ∀ e ∈ E, e.2 ∈ names)
    {c : String} {q : List String} {deg : String → Int} {out : List String}
    (h : KInv E names (c :: q) deg out) :
    KInv E names (relaxAll (adjOf E c) q deg).1 (relaxAll (adjOf E c) q deg).2
      (out ++ [c]) := by
  have hndq : (c :: q).Nodup ∧ out.Nodup ∧ List.Disjoint out (c :: q) := by
    have := h.nodup
    rw [List.nodup_append] at this
    exact ⟨this.2.1, this.1, this.2.2⟩
  have hcout : c ∉ out := fun hmem => hndq.2.2 hmem (List.mem_cons_self _ _)
  have hcq : c ∉ q := by
    have := hndq.1
    rw [List.nodup_cons] at this
    exact this.1
  have hq : q.Nodup := by
    have := hndq.1
    rw [List.nodup_cons] at this
    exact this.2
  have hmemc : c ∈ out ++ c :: q := List.mem_append.mpr (Or.inr (List.mem_cons_self _ _))
  have hdszc : degSpec E out c = 0 := h.zero c hmemc
  have hgeC : ∀ x, ((adjOf E c).count x : Int) ≤ deg x := by
    intro x
    rw [h.degEq x, count_adjOf]
    have hm : (E.countP fun e => decide (e.1 = c ∧ e.2 = x)) ≤ degSpec E out x := by
      apply List.countP_mono_left
      intro e he hp
      simp only [decide_eq_true_eq] at hp ⊢
      exact ⟨hp.2, hp.1 ▸ hcout⟩
    exact_mod_cast hm
  have hqz : ∀ x ∈ q, deg x = 0 := by
    intro x hx
    rw [h.degEq x]
    have := h.zero x (List.mem_append.mpr (Or.inr (List.mem_cons_of_mem _ hx)))
    exact_mod_cast this
  have hdegEq : ∀ n, (relaxAll (adjOf E c) q deg).2 n = (degSpec E (out ++ [c]) n : Int) := by
    intro n
    rw [relaxAll_deg, h.degEq n, count_adjOf, degSpec_pop E out c hcout n]
    push_cast
    ring
  have hqmem : ∀ x, x ∈ (relaxAll (adjOf E c) q deg).1 ↔
      x ∈ q ∨ (0 < (adjOf E c).count x ∧ deg x = ((adjOf E c).count x : Int)) :=
    relaxAll_mem_iff _ _ _ hgeC
  have hzero : ∀ x ∈ (out ++ [c]) ++ (relaxAll (adjOf E c) q deg).1,
      degSpec E (out ++ [c]) x = 0 := by
    intro x hx
    rcases List.mem_append.mp hx with hx1 | hx2
    · have hold : degSpec E out x = 0 := by
        rcases List.mem_append.mp hx1 with hxo | hxc
        · exact h.zero x (List.mem_append.mpr (Or.inl hxo))
        · simp at hxc
          subst hxc
          exact hdszc
      have := degSpec_pop E out c hcout x
      omega
    · have := relaxAll_zero (adjOf E c) q deg hgeC hqz x hx2
      rw [hdegEq x] at this
      exact_mod_cast this
  refine ⟨?_, ?_, hdegEq, hzero, ?_, ?_⟩
  · refine List.Nodup.append ?_ (relaxAll_nodup _ _ _ hgeC hqz hq) ?_
    · exact (hndq.2.1).append (List.nodup_singleton c)
        (fun x hx hx1 => by simp at hx1; subst hx1; exact hcout hx)
    · intro x hxoc hxq
      rcases (hqmem x).mp hxq with hxq1 | ⟨hpos, hdx⟩
      · rcases List.mem_append.mp hxoc with hxo | hxc
        · exact hndq.2.2 hxo (List.mem_cons_of_mem _ hxq1)
        · simp at hxc; subst hxc; exact hcq hxq1
      · have h0 : degSpec E out x = 0 := by
          rcases List.mem_append.mp hxoc with hxo | hxc
          · exact h.zero x (List.mem_append.mpr (Or.inl hxo))
          · simp at hxc; subst hxc; exact hdszc
        rw [h.degEq x, h0] at hdx
        simp at hdx
        omega
  · intro x hx
    rcases List.mem_append.mp hx with hx1 | hx2
    · rcases List.mem_append.mp hx1 with hxo | hxc
      · exact h.sub x (List.mem_append.mpr (Or.inl hxo))
      · simp at hxc; subst hxc; exact h.sub _ hmemc
    · rcases relaxAll_mem_sub _ _ _ _ hx2 with hxq | hxa
      · exact h.sub x (List.mem_append.mpr (Or.inr (List.mem_cons_of_mem _ hxq)))
      · exact hE2 _ (adjOf_mem hxa)
  · intro e he h2
    rcases List.mem_append.mp h2 with h2o | h2c
    · exact (h.topo e he h2o).trans (List.sublist_append_left out [c])
    · simp at h2c
      have hsrc : e.1 ∈ out := by
        have hz := hdszc
        unfold degSpec at hz
        rw [List.countP_eq_zero] at hz
        have := hz e he
        simp only [decide_eq_true_eq] at this
        by_contra hno
        exact this ⟨h2c, hno⟩
      have hsl : List.Sublist [e.1] out := List.singleton_sublist.mpr hsrc
      have : List.Sublist ([e.1] ++ [e.2]) (out ++ [c]) := by
        rw [h2c]
        exact hsl.append (List.Sublist.refl [c])
      simpa using this
  · intro n hn hdz
    by_cases h0 : degSpec E out n = 0
    · have := h.closure n hn h0
      rcases List.mem_append.mp this with hno | hnc
      · exact List.mem_append.mpr (Or.inl (List.mem_append.mpr (Or.inl hno)))
      · rcases List.mem_cons.mp hnc with hnc1 | hnq
        · subst hnc1
          exact List.mem_append.mpr (Or.inl (List.mem_append.mpr (Or.inr (List.mem_singleton.mpr rfl))))
        · exact List.mem_append.mpr (Or.inr ((hqmem n).mpr (Or.inl hnq)))
    · have hpop := degSpec_pop E out c hcout n
      have hcnt : 0 < E.countP fun e => decide (e.1 = c ∧ e.2 = n) := by omega
      refine List.mem_append.mpr (Or.inr ((hqmem n).mpr (Or.inr ⟨?_, ?_⟩)))
      · rw [count_adjOf]; exact hcnt
      · rw [h.degEq n, count_adjOf]
        omega

theorem kahnLoop_final {E : List (String × String)} {names : List String}
    (hE2 : ∀ e ∈ E, e.2 ∈ names) :
    ∀ (fuel : Nat) (q : List String) (deg : String → Int) (out : List String),
      KInv E names q deg out →
      q.length + pendEdges E out ≤ fuel →
      ∃ deg2, KInv E names [] deg2 (kahnLoop (adjOf E) fuel q deg out) := by
  intro fuel
  induction fuel with
  | zero =>
    intro q deg out hinv hfuel
    cases q with
    | nil => exact ⟨deg, hinv⟩
    | cons c q => simp at hfuel
  | succ fuel ih =>
    intro q deg out hinv hfuel
    cases q with
    | nil => exact ⟨deg, hinv⟩
    | cons c q =>
      have hcout : c ∉ out := by
        have := hinv.nodup
        rw [List.nodup_append] at this
        exact fun hm => this.2.2 hm (List.mem_cons_self _ _)
      have hstep := kInv_step hE2 hinv
      show ∃ deg2, KInv E names [] deg2
        (kahnLoop (adjOf E) fuel (relaxAll (adjOf E c) q deg).1
          (relaxAll (adjOf E c) q deg).2 (out ++ [c]))
      apply ih _ _ _ hstep
      have h1 : (relaxAll (adjOf E c) q deg).1.length ≤ q.length + (adjOf E c).length :=
        relaxAll_len _ _ _
      have h2 : pendEdges E out = pendEdges E (out ++ [c]) + (adjOf E c).length :=
        pendEdges_pop E out c hcout
      simp only [List.length_cons] at hfuel
      omega

theorem kInv_init (E : List (String × String)) (setOrder : List String)
    (hnd : setOrder.Nodup) :
    KInv E setOrder (setOrder.filter fun n => decide (deg0 E n = 0)) (deg0 E) [] := by
  refine ⟨?_, ?_, ?_, ?_, ?_, ?_⟩
  · simpa using hnd.filter _
  · intro x hx
    rw [List.nil_append] at hx
    exact List.mem_of_mem_filter hx
  · intro n
    exact degSpec_nil E n
  · intro x hx
    rw [List.nil_append] at hx
    have := List.of_mem_filter hx
    simp only [decide_eq_true_eq] at this
    have h2 := degSpec_nil E x
    omega
  · intro e _ h2
    exact absurd h2 (List.not_mem_nil _)
  · intro n hn hdz
    rw [List.nil_append]
    apply List.mem_filter.mpr
    refine ⟨hn, ?_⟩
    simp only [decide_eq_true_eq]
    have h2 := degSpec_nil E n
    omega

/-- The execution order computed by the Kahn loop with the fuel budget
used in `resolveWith`. -/
def kahnOut (E : List (String × String)) (setOrder : List String) : List String :=
  kahnLoop (adjOf E) (setOrder.length + E.length)
    (setOrder.filter fun n => decide (deg0 E n = 0)) (deg0 E) []

theorem resolveWith_eq (configs : List WorkSpec) (setOrder : List String) :
    resolveWith configs setOrder =
      if (kahnOut (inSetEdges configs setOrder) setOrder).length = setOrder.length
      then Except.ok (kahnOut (inSetEdges configs setOrder) setOrder)
      else Except.error (setOrder.filter fun n =>
        decide (n ∉ kahnOut (inSetEdges configs setOrder) setOrder)) := rfl

theorem kahnOut_spec (E : List (String × String)) (setOrder : List String)
    (hnd : setOrder.Nodup) (hE2 : ∀ e ∈ E, e.2 ∈ setOrder) :
    (kahnOut E setOrder).Nodup ∧
    (∀ x ∈ kahnOut E setOrder, x ∈ setOrder) ∧
    (∀ e ∈ E, e.2 ∈ kahnOut E setOrder →
      List.Sublist [e.1, e.2] (kahnOut E setOrder)) ∧
    (∀ n ∈ setOrder, degSpec E (kahnOut E setOrder) n = 0 → n ∈ kahnOut E setOrder) := by
  have hfuel : (setOrder.filter fun n => decide (deg0 E n = 0)).length + pendEdges E [] ≤
      setOrder.length + E.length := by
    have h1 := List.length_filter_le (fun n => decide (deg0 E n = 0)) setOrder
    have h2 : pendEdges E [] ≤ E.length := List.countP_le_length _
    omega
  obtain ⟨deg2, hf⟩ := kahnLoop_final hE2 _ _ _ _ (kInv_init E setOrder hnd) hfuel
  have hout : ∀ {x : String}, x ∈ kahnOut E setOrder ++ ([] : List String) ↔
      x ∈ kahnOut E setOrder := by
    intro x
    rw [List.append_nil]
  refine ⟨?_, ?_, ?_, ?_⟩
  · have := hf.nodup
    rwa [List.append_nil] at this
  · intro x hx
    exact hf.sub x (hout.mpr hx)
  · exact hf.topo
  · intro n hn hd
    exact hout.mp (hf.closure n hn hd)

theorem sublist_pair_index {out : List String} (hnd : out.Nodup) :
    ∀ {a b : String}, List.Sublist [a, b] out → out.indexOf a < out.indexOf b := by
  induction out with
  | nil =>
    intro a b h
    exact absurd (h.subset (List.mem_cons_self _ _)) (List.not_mem_nil _)
  | cons x rest ih =>
    intro a b h
    have hbr : b ∈ x :: rest := h.subset (List.mem_cons_of_mem _ (List.mem_cons_self _ _))
    have har : a ∈ x :: rest := h.subset (List.mem_cons_self _ _)
    rw [List.nodup_cons] at hnd
    cases h with
    | cons _ htail =>
      have hatail : a ∈ rest := htail.subset (List.mem_cons_self _ _)
      have hbtail : b ∈ rest := htail.subset (List.mem_cons_of_mem _ (List.mem_cons_self _ _))
      have hax : x ≠ a := fun hh => hnd.1 (hh ▸ hatail)
      have hbx : x ≠ b := fun hh => hnd.1 (hh ▸ hbtail)
      rw [List.indexOf_cons_ne _ hax, List.indexOf_cons_ne _ hbx]
      exact Nat.succ_lt_succ (ih hnd.2 htail)
    | cons₂ _ htail =>
      have hbtail : b ∈ rest := htail.subset (List.mem_cons_self _ _)
      have hxb : x ≠ b := fun hh => hnd.1 (hh ▸ hbtail)
      rw [List.indexOf_cons_self, List.indexOf_cons_ne _ hxb]
      exact Nat.succ_pos _

theorem transGen_mem_out {E : List (String × String)} {out : List String}
    (htopo : ∀ e ∈ E, e.2 ∈ out → List.Sublist [e.1, e.2] out) :
    ∀ {a b : String}, Relation.TransGen (edgeStep E) a b → b ∈ out → a ∈ out := by
  intro a b h
  induction h with
  | single hab =>
    intro hb
    exact ((htopo _ hab hb).subset (List.mem_cons_self _ _))
  | tail hab hbc ih =>
    intro hc
    exact ih ((htopo _ hbc hc).subset (List.mem_cons_self _ _))

theorem transGen_index {E : List (String × String)} {out : List String}
    (hnd : out.Nodup)
    (htopo : ∀ e ∈ E, e.2 ∈ out → List.Sublist [e.1, e.2] out) :
    ∀ {a b : String}, Relation.TransGen (edgeStep E) a b → b ∈ out →
      out.indexOf a < out.indexOf b := by
  intro a b h
  induction h with
  | single hab =>
    intro hb
    exact sublist_pair_index hnd (htopo _ hab hb)
  | tail hab hbc ih =>
    intro hc
    have hb : _ ∈ out := (htopo _ hbc hc).subset (List.mem_cons_self _ _)
    exact lt_trans (ih hb) (sublist_pair_index hnd (htopo _ hbc hc))

theorem cycle_of_all_pred (E : List (String × String)) (S : List String) (x : String)
    (hx : x ∈ S) (hpred : ∀ n ∈ S, ∃ m ∈ S, (m, n) ∈ E) :
    ∃ m, Relation.TransGen (edgeStep E) m m ∧
      (m = x ∨ Relation.TransGen (edgeStep E) m x) := by
  classical
  obtain ⟨f, hf⟩ : ∃ f : String → String, ∀ n ∈ S, f n ∈ S ∧ (f n, n) ∈ E := by
    refine ⟨fun n => if h : n ∈ S then (hpred n h).choose else n, ?_⟩
    intro n hn
    simp only [dif_pos hn]
    obtain ⟨hm, he⟩ := (hpred n hn).choose_spec
    exact ⟨hm, he⟩
  have hgS : ∀ k : Nat, f^[k] x ∈ S := by
    intro k
    induction k with
    | zero => simpa using hx
    | succ k ih =>
      rw [Function.iterate_succ_apply']
      exact (hf _ ih).1
  have hstep : ∀ k : Nat, edgeStep E (f^[k + 1] x) (f^[k] x) := by
    intro k
    rw [Function.iterate_succ_apply']
    exact (hf _ (hgS k)).2
  have hchain : ∀ d k : Nat, Relation.TransGen (edgeStep E) (f^[k + d + 1] x) (f^[k] x) := by
    intro d
    induction d with
    | zero => intro k; exact Relation.TransGen.single (hstep k)
    | succ d ih =>
      intro k
      exact (Relation.TransGen.single (hstep (k + d + 1))).trans (ih k)
  have hcard : S.toFinset.card < (Finset.range (S.length + 1)).card := by
    rw [Finset.card_range]
    exact Nat.lt_succ_of_le (List.toFinset_card_le S)
  have hmaps : ∀ k ∈ Finset.range (S.length + 1), f^[k] x ∈ S.toFinset := by
    intro k _
    exact List.mem_toFinset.mpr (hgS k)
  obtain ⟨i, _, j, _, hij, heq⟩ :=
    Finset.exists_ne_map_eq_of_card_lt_of_maps_to hcard hmaps
  have key : ∀ a b : Nat, a < b → f^[a] x = f^[b] x →
      ∃ m, Relation.TransGen (edgeStep E) m m ∧
        (m = x ∨ Relation.TransGen (edgeStep E) m x) := by
    intro a b hab hfeq
    obtain ⟨d, rfl⟩ : ∃ d, b = a + d + 1 := ⟨b - a - 1, by omega⟩
    refine ⟨f^[a] x, ?_, ?_⟩
    · have h2 := hchain d a
      rwa [← hfeq] at h2
    · cases a with
      | zero => exact Or.inl (by simp)
      | succ a0 =>
        right
        have h3 := hchain a0 0
        rw [Nat.zero_add] at h3
        simpa using h3
  rcases lt_or_gt_of_ne hij with h | h
  · exact key i j h heq
  · exact key j i h heq.symm

theorem inSetEdges_mem_iff {configs : List WorkSpec} {names : List String}
    {d m : String} :
    (d, m) ∈ inSetEdges configs names ↔
      ∃ cfg ∈ configs, cfg.name = m ∧ d ∈ cfg.dependencies ∧ d ∈ names := by
  unfold inSetEdges
  rw [List.mem_flatMap]
  constructor
  · rintro ⟨cfg, hcfg, hmem⟩
    rcases List.mem_map.mp hmem with ⟨d0, hd0, heq⟩
    rcases List.mem_filter.mp hd0 with ⟨hdep, hdn⟩
    simp only [decide_eq_true_eq] at hdn
    have hd : d0 = d := congrArg Prod.fst heq
    have hm : cfg.name = m := congrArg Prod.snd heq
    subst hd
    exact ⟨cfg, hcfg, hm, hdep, hdn⟩
  · rintro ⟨cfg, hcfg, hm, hdep, hdn⟩
    refine ⟨cfg, hcfg, ?_⟩
    apply List.mem_map.mpr
    refine ⟨d, ?_, by rw [hm]⟩
    exact List.mem_filter.mpr ⟨hdep, by simpa using hdn⟩

theorem inSetEdges_src {configs : List WorkSpec} {names : List String} :
    ∀ e ∈ inSetEdges configs names, e.1 ∈ names := by
  rintro ⟨d, m⟩ he
  exact (inSetEdges_mem_iff.mp he).choose_spec.2.2.2

theorem inSetEdges_dst {configs : List WorkSpec} {names : List String}
    (hss : ∀ cfg ∈ configs, cfg.name ∈ names) :
    ∀ e ∈ inSetEdges configs names, e.2 ∈ names := by
  rintro ⟨d, m⟩ he
  obtain ⟨cfg, hcfg, hm, _, _⟩ := inSetEdges_mem_iff.mp he
  exact hm ▸ hss cfg hcfg

theorem names_sub_of_perm {configs : List WorkSpec} {setOrder : List String}
    (hperm : List.Perm setOrder (namesOf configs)) :
    ∀ cfg ∈ configs, cfg.name ∈ setOrder := by
  intro cfg hcfg
  apply hperm.mem_iff.mpr
  unfold namesOf
  exact List.mem_dedup.mpr (List.mem_map_of_mem WorkSpec.name hcfg)

theorem nodup_of_perm_names {configs : List WorkSpec} {setOrder : List String}
    (hperm : List.Perm setOrder (namesOf configs)) : setOrder.Nodup :=
  hperm.symm.nodup (List.nodup_dedup _)

/-- If every name of the set makes it into the Kahn output, the output is
a permutation of the set. -/
theorem kahnOut_perm {E : List (String × String)} {setOrder : List String}
    (hnd : setOrder.Nodup) (hond : (kahnOut E setOrder).Nodup)
    (hsub : ∀ x ∈ kahnOut E setOrder, x ∈ setOrder)
    (hcomplete : ∀ n ∈ setOrder, n ∈ kahnOut E setOrder) :
    List.Perm (kahnOut E setOrder) setOrder := by
  apply List.perm_of_nodup_nodup_toFinset_eq hond hnd
  apply Finset.ext
  intro a
  simp only [List.mem_toFinset]
  exact ⟨fun h => hsub a h, fun h => hcomplete a h⟩

/-- Every missing name has a missing in-set predecessor; so under
acyclicity every name of the set is emitted by the Kahn loop. -/
theorem missing_has_missing_pred {E : List (String × String)} {setOrder : List String}
    (hnd : setOrder.Nodup) (hE1 : ∀ e ∈ E, e.1 ∈ setOrder)
    (hE2 : ∀ e ∈ E, e.2 ∈ setOrder) :
    ∀ m ∈ setOrder.filter (fun n => decide (n ∉ kahnOut E setOrder)),
      ∃ p ∈ setOrder.filter (fun n => decide (n ∉ kahnOut E setOrder)),
        (p, m) ∈ E := by
  obtain ⟨hond, hsub, htopo, hclosure⟩ := kahnOut_spec E setOrder hnd hE2
  intro m hm
  have hmso : m ∈ setOrder := List.mem_of_mem_filter hm
  have hmout : m ∉ kahnOut E setOrder := by simpa using List.of_mem_filter hm
  have hdnz : degSpec E (kahnOut E setOrder) m ≠ 0 := fun h0 => hmout (hclosure m hmso h0)
  have hpos : 0 < degSpec E (kahnOut E setOrder) m := Nat.pos_of_ne_zero hdnz
  unfold degSpec at hpos
  rw [List.countP_pos_iff] at hpos
  obtain ⟨e, heE, hprop⟩ := hpos
  simp only [decide_eq_true_eq] at hprop
  refine ⟨e.1, ?_, ?_⟩
  · exact List.mem_filter.mpr ⟨hE1 e heE, by simpa using hprop.2⟩
  · have hcast : e = (e.1, m) := by
      rcases e with ⟨a, b⟩
      simp only at hprop
      simp [hprop.1]
    exact hcast ▸ heE

theorem kahn_complete {E : List (String × String)} {setOrder : List String}
    (hnd : setOrder.Nodup) (hE1 : ∀ e ∈ E, e.1 ∈ setOrder)
    (hE2 : ∀ e ∈ E, e.2 ∈ setOrder) (hacyc : AcyclicE E) :
    ∀ n ∈ setOrder, n ∈ kahnOut E setOrder := by
  intro n0 hn0
  by_contra hout
  have hxS : n0 ∈ setOrder.filter (fun n => decide (n ∉ kahnOut E setOrder)) :=
    List.mem_filter.mpr ⟨hn0, by simpa using hout⟩
  obtain ⟨mm, hmm, _⟩ :=
    cycle_of_all_pred E _ n0 hxS (missing_has_missing_pred hnd hE1 hE2)
  exact hacyc mm hmm

theorem acyclicE_of_rank (E : List (String × String)) (pos : String → Nat)
    (h : ∀ e ∈ E, pos e.1 < pos e.2) : AcyclicE E := by
  intro n hn
  have hmono : ∀ a b, Relation.TransGen (edgeStep E) a b → pos a < pos b := by
    intro a b hab
    induction hab with
    | single h1 => exact h _ h1
    | tail _ h2 ih => exact lt_trans ih (h _ h2)
  exact lt_irrefl _ (hmono n n hn)

/-- C1: on any input whose in-set dependency subgraph is acyclic,
`DependencyResolver.resolve` returns an order placing every name after
all of its in-set dependencies, with exactly one entry per distinct
input name (so dangling dependencies, dropped when building the graph,
never block resolution), whatever iteration order the `all_agents` set
exhibits; and the empty input yields the empty order without error. -/
theorem C1_resolve_acyclic (configs : List WorkSpec) (setOrder : List String)
    (hperm : List.Perm setOrder (namesOf configs))
    (hacyc : AcyclicE (inSetEdges configs setOrder)) :
    (∃ order, resolveWith configs setOrder = Except.ok order ∧
      order.length = (namesOf configs).length ∧
      List.Perm order setOrder ∧
      ∀ cfg ∈ configs, ∀ dep ∈ cfg.dependencies, dep ∈ setOrder →
        List.Sublist [dep, cfg.name] order) ∧
    resolve [] = Except.ok [] := by
  have hnd := nodup_of_perm_names hperm
  have hss := names_sub_of_perm hperm
  have hE1 := @inSetEdges_src configs setOrder
  have hE2 := inSetEdges_dst hss
  obtain ⟨hond, hsub, htopo, hclosure⟩ := kahnOut_spec _ setOrder hnd hE2
  have hcomp := kahn_complete hnd hE1 hE2 hacyc
  have hpermOut := kahnOut_perm hnd hond hsub hcomp
  have hlen : (kahnOut (inSetEdges configs setOrder) setOrder).length = setOrder.length :=
    hpermOut.length_eq
  refine ⟨⟨kahnOut (inSetEdges configs setOrder) setOrder, ?_, ?_, hpermOut, ?_⟩, rfl⟩
  · rw [resolveWith_eq, if_pos hlen]
  · rw [hlen, hperm.length_eq]
  · intro cfg hcfg dep hdep hdso
    have hedge : (dep, cfg.name) ∈ inSetEdges configs setOrder :=
      inSetEdges_mem_iff.mpr ⟨cfg, hcfg, rfl, hdep, hdso⟩
    have hcm : cfg.name ∈ kahnOut (inSetEdges configs setOrder) setOrder :=
      hcomp _ (hss cfg hcfg)
    exact htopo (dep, cfg.name) hedge hcm

/-- A concrete two-spec input whose first spec carries a dangling
dependency on the absent name X. -/
def c1Configs : List WorkSpec :=
  [⟨"A", "r", [], ["X"]⟩, ⟨"B", "r", [], ["A"]⟩]

/-- Witness for C1 at `c1Configs`. -/
theorem C1_resolve_acyclic_witness :
    List.Perm ["A", "B"] (namesOf c1Configs) ∧
    AcyclicE (inSetEdges c1Configs ["A", "B"]) ∧
    ((∃ order, resolveWith c1Configs ["A", "B"] = Except.ok order ∧
        order.length = (namesOf c1Configs).length ∧
        List.Perm order ["A", "B"] ∧
        ∀ cfg ∈ c1Configs, ∀ dep ∈ cfg.dependencies, dep ∈ ["A", "B"] →
          List.Sublist [dep, cfg.name] order) ∧
      resolve [] = Except.ok []) := by
  have hperm : List.Perm ["A", "B"] (namesOf c1Configs) := List.Perm.refl _
  have hacyc : AcyclicE (inSetEdges c1Configs ["A", "B"]) :=
    acyclicE_of_rank _ (fun n => if n = "A" then 0 else 1) (by decide)
  exact ⟨hperm, hacyc, C1_resolve_acyclic _ _ hperm hacyc⟩

theorem transGen_dst {E : List (String × String)} {a b : String}
    (h : Relation.TransGen (edgeStep E) a b) : ∃ e ∈ E, e.2 = b := by
  induction h with
  | single h1 => exact ⟨_, h1, rfl⟩
  | tail _ h2 _ => exact ⟨_, h2, rfl⟩

theorem out_not_mem_of_downstream {E : List (String × String)} {setOrder : List String}
    (hnd : setOrder.Nodup) (hE2 : ∀ e ∈ E, e.2 ∈ setOrder) :
    ∀ n, OnOrDownstream E n → n ∉ kahnOut E setOrder := by
  obtain ⟨hond, _, htopo, _⟩ := kahnOut_spec E setOrder hnd hE2
  rintro n ⟨m, hcyc, hreach⟩ hmem
  have hm : m ∈ kahnOut E setOrder := by
    rcases hreach with rfl | htg
    · exact hmem
    · exact transGen_mem_out htopo htg hmem
  exact absurd (transGen_index hond htopo hcyc hm) (lt_irrefl _)

theorem downstream_of_missing {E : List (String × String)} {setOrder : List String}
    (hnd : setOrder.Nodup) (hE1 : ∀ e ∈ E, e.1 ∈ setOrder)
    (hE2 : ∀ e ∈ E, e.2 ∈ setOrder) :
    ∀ n ∈ setOrder, n ∉ kahnOut E setOrder → OnOrDownstream E n := by
  intro n hn hout
  have hxS : n ∈ setOrder.filter (fun x => decide (x ∉ kahnOut E setOrder)) :=
    List.mem_filter.mpr ⟨hn, by simpa using hout⟩
  obtain ⟨m, hcyc, hreach⟩ :=
    cycle_of_all_pred E _ n hxS (missing_has_missing_pred hnd hE1 hE2)
  exact ⟨m, hcyc, hreach⟩

theorem kahnOut_short_of_cycle {E : List (String × String)} {setOrder : List String}
    (hnd : setOrder.Nodup) (hE2 : ∀ e ∈ E, e.2 ∈ setOrder)
    (hcyc : ∃ n, Relation.TransGen (edgeStep E) n n) :
    (kahnOut E setOrder).length < setOrder.length := by
  obtain ⟨n, hn⟩ := hcyc
  obtain ⟨hond, hsub, _, _⟩ := kahnOut_spec E setOrder hnd hE2
  have hnso : n ∈ setOrder := by
    obtain ⟨e, heE, h2⟩ := transGen_dst hn
    exact h2 ▸ hE2 e heE
  have hnout : n ∉ kahnOut E setOrder :=
    out_not_mem_of_downstream hnd hE2 n ⟨n, hn, Or.inl rfl⟩
  have hsubF : (kahnOut E setOrder).toFinset ⊆ setOrder.toFinset.erase n := by
    intro a ha
    rw [List.mem_toFinset] at ha
    exact Finset.mem_erase.mpr
      ⟨fun hh => hnout (hh ▸ ha), List.mem_toFinset.mpr (hsub a ha)⟩
  have h1 := Finset.card_le_card hsubF
  rw [List.toFinset_card_of_nodup hond,
    Finset.card_erase_of_mem (List.mem_toFinset.mpr hnso),
    List.toFinset_card_of_nodup hnd] at h1
  have h2 : 0 < setOrder.length := List.length_pos.mpr (List.ne_nil_of_mem hnso)
  omega

/-- The result dictionary returned by `LLMService.reason_as_agent`:
after the `setdefault` calls it always carries the keys `agent`,
`status` and `summary`. -/
structure AgentResult where
  agent : String
  status : String
  summary : String
deriving DecidableEq, Inhabited

/-- A `BaseAgent`: the work spec fields plus the mutable `status`
string, initialised to `pending` in `__init__`. -/
structure BAgent where
  name : String
  role : String
  responsibilities : List String
  dependencies : List String
  status : String
deriving DecidableEq

/-- `AgentFactory.create_agent`: a fresh agent in status `pending`. -/
def mkAgent (spec : WorkSpec) : BAgent :=
  ⟨spec.name, spec.role, spec.responsibilities, spec.dependencies, "pending"⟩

/-- The keys a parsed response dictionary actually carries; `none`
fields are filled by `setdefault`. -/
structure PartialResult where
  agent : Option String
  status : Option String
  summary : Option String
deriving DecidableEq

/-- What `_parse_json` hands back when it finds parseable JSON: a JSON
object (a Python dict), or a JSON value of another top-level type
(list, string, number), on which the subsequent `setdefault` calls
raise `AttributeError`; `ty` names that type. -/
inductive ParsedJson
  | dict (p : PartialResult)
  | nonDict (ty : String)
deriving DecidableEq

/-- Outcome of the reasoning-service call made by `reason_as_agent`:
either the HTTP call itself raises, or a textual response is received
and `_parse_json` extracts `some` JSON value or fails with `ValueError`
(`none`). -/
inductive LLMRaw
  | unreachable (msg : String)
  | received (parsed : Option ParsedJson)
deriving DecidableEq

/-- `LLMService.reason_as_agent`: an unreachable service propagates the
raised message; a received JSON object is completed with `setdefault`
values; a response with no extractable JSON raises `ValueError`, which
the `except ValueError` clause turns into the fallback summary
synthesized from role and responsibilities; a received JSON value that
is not an object raises `AttributeError` at the first `setdefault`,
which nothing catches, so it propagates. -/
def reasonAsAgent (name role : String) (responsibilities : List String)
    (raw : LLMRaw) : Except String AgentResult :=
  match raw with
  | .unreachable m => Except.error m
  | .received (some (.dict p)) =>
      Except.ok ⟨p.agent.getD name, p.status.getD "completed",
        p.summary.getD (name ++ " completed assigned tasks.")⟩
  | .received (some (.nonDict ty)) =>
      Except.error ("AttributeError: " ++ ty ++ " object has no attribute setdefault")
  | .received none =>
      Except.ok ⟨name, "completed",
        name ++ " (" ++ role ++ ") completed: " ++
          String.intercalate ", " responsibilities⟩

/-- `BaseAgent.execute`: sets status to `running`, delegates to the
reasoning service, and on success sets status to `completed`.  The third
component records the statuses assigned, in order. -/
def BAgent.execute (a : BAgent) (raw : LLMRaw) :
    BAgent × Except String AgentResult × List String :=
  match reasonAsAgent a.name a.role a.responsibilities raw with
  | .error m => ({ a with status := "running" }, Except.error m, ["running"])
  | .ok r => ({ a with status := "completed" }, Except.ok r, ["running", "completed"])

/-- A sequence of `execute` calls applied to an agent. -/
def runAgent (a : BAgent) : List LLMRaw → BAgent
  | [] => a
  | raw :: rest => runAgent (a.execute raw).1 rest

/-- `AgentRegistry._agents`: a Python dict, i.e. an insertion-ordered
association list with unique keys. -/
def registerAgent (r : List (String × BAgent)) (a : BAgent) :
    Except String (List (String × BAgent)) :=
  if a.name ∈ r.map Prod.fst then Except.error a.name
  else Except.ok (r ++ [(a.name, a)])

/-- `AgentRegistry.get_agent`: `dict.get`, an explicit absent value. -/
def getAgent (r : List (String × BAgent)) (name : String) : Option BAgent :=
  (r.find? fun p => p.1 == name).map Prod.snd

/-- `AgentRegistry.list_agents`: `dict.values()` in insertion order. -/
def listAgents (r : List (String × BAgent)) : List BAgent :=
  r.map Prod.snd

/-- Step 3 of the pipeline: create and register one agent per config. -/
def registerAll : List WorkSpec → List (String × BAgent) →
    Except String (List (String × BAgent))
  | [], r => Except.ok r
  | cfg :: rest, r =>
    match registerAgent r (mkAgent cfg) with
    | .error n => Except.error n
    | .ok r2 => registerAll rest r2

/-- The events pushed through `event_callback`, with the payload fields
the claims refer to. -/
inductive PEvent
  | statusEv (step : String)
  | memoryRetrieved (ctx : List String)
  | agentsDesigned
  | dependencyResolved (order : List String)
  | agentExecuting (name : String)
  | agentCompleted (res : AgentResult)
  | orchestrationCompleted
  | errorEv (msg : String)
  | doneEv
deriving DecidableEq

/-- The externally visible actions of one pipeline run: events pushed to
the bridge, calls into `BaseAgent.execute`, and vector-store writes. -/
inductive Action
  | emit (e : PEvent)
  | callReason (name : String)
  | saveTrace (scenario : String) (agents : List String)
deriving DecidableEq

/-- The errors `MetaOrchestrator.execute` can raise, with the message
carried by `str(e)`; a reasoning-service failure keeps its message. -/
inductive OrchError
  | analysisFailed (msg : String)
  | duplicateName (name : String)
  | cycle (remaining : List String)
  | reasonFailed (msg : String)
deriving DecidableEq

def OrchError.msg : OrchError → String
  | .analysisFailed m => m
  | .duplicateName n => "Agent " ++ n ++ " is already registered."
  | .cycle rem =>
      "Circular dependency detected among agents: " ++ String.intercalate ", " rem
  | .reasonFailed m => m

/-- The environment of one run: everything the pipeline receives from
outside.  `analysis` is the outcome of `LLMService.analyze_scenario`,
`setOrder` the iteration order of the `all_agents` set, and `reason` the
outcome of the reasoning call performed inside each `BaseAgent.execute`. -/
structure Env where
  memoryContext : List String
  analysis : Except String (List WorkSpec)
  setOrder : List WorkSpec → List String
  reason : String → Except String AgentResult

/-- The stage-7 aggregate response of `MetaOrchestrator.execute`. -/
structure Response where
  scenario : String
  agentsCreated : Nat
  executionOrder : List String
  memoryContextUsed : List String
  results : List AgentResult
deriving DecidableEq

/-- Step 5 of the pipeline: for each name in order, look the agent up
(skipping and continuing when absent), emit `agent_executing`, call the
agent, and on success emit `agent_completed` and record the result; a
raised reasoning error aborts the loop. -/
def execLoop (env : Env) (registry : List (String × BAgent)) :
    List String → List Action → List AgentResult →
    List Action × Except String (List AgentResult)
  | [], acts, results => (acts, Except.ok results)
  | name :: rest, acts, results =>
    match getAgent registry name with
    | none => execLoop env registry rest acts results
    | some _ =>
      match env.reason name with
      | .error m =>
          (acts ++ [Action.emit (.agentExecuting name), Action.callReason name],
            Except.error m)
      | .ok r =>
          execLoop env registry rest
            (acts ++ [Action.emit (.agentExecuting name), Action.callReason name,
              Action.emit (.agentCompleted r)])
            (results ++ [r])

/-- Events emitted before and during step 2 (memory retrieval and the
scenario-analysis call). -/
def preA (env : Env) : List Action :=
  [.emit (.statusEv "Initializing pipeline..."),
    .emit (.statusEv "Retrieving memory context..."),
    .emit (.memoryRetrieved env.memoryContext),
    .emit (.statusEv "Analyzing scenario with LLM...")]

/-- Events emitted up to and during step 3 (agent creation). -/
def preB (env : Env) : List Action :=
  preA env ++ [.emit .agentsDesigned, .emit (.statusEv "Creating agents...")]

/-- Events emitted up to and during step 4 (dependency resolution). -/
def preC (env : Env) : List Action :=
  preB env ++ [.emit (.statusEv "Resolving dependencies...")]

/-- Events emitted before the per-agent execution loop starts. -/
def preD (env : Env) (order : List String) : List Action :=
  preC env ++ [.emit (.dependencyResolved order)]

/-- `MetaOrchestrator.execute` with an event callback: the action trace
of one run together with its outcome. -/
def orchExecute (scenario : String) (env : Env) :
    List Action × Except OrchError Response :=
  match env.analysis with
  | .error m => (preA env, Except.error (.analysisFailed m))
  | .ok configs =>
    match registerAll configs [] with
    | .error dup => (preB env, Except.error (.duplicateName dup))
    | .ok registry =>
      match resolveWith configs (env.setOrder configs) with
      | .error rem => (preC env, Except.error (.cycle rem))
      | .ok order =>
        match execLoop env registry order (preD env order) [] with
        | (acts, .error m) => (acts, Except.error (.reasonFailed m))
        | (acts, .ok results) =>
          (acts ++ [.emit (.statusEv "Saving execution trace..."),
              .saveTrace scenario order,
              .emit .orchestrationCompleted],
            Except.ok ⟨scenario, configs.length, order, env.memoryContext, results⟩)

/-- The events among a run's actions, in order. -/
def eventsOf (acts : List Action) : List PEvent :=
  acts.filterMap fun a =>
    match a with
    | .emit e => some e
    | _ => none

/-- The SSE producer `run_orchestrator`: the pipeline's own events, then
on an uncaught error a single `error` event with its message, and in
every case one terminal `done` event. -/
def runOrchestrator (scenario : String) (env : Env) : List PEvent :=
  let p := orchExecute scenario env
  eventsOf p.1 ++
    (match p.2 with
     | .ok _ => []
     | .error e => [PEvent.errorEv e.msg]) ++
    [PEvent.doneEv]

def isTerminal : PEvent → Bool
  | .doneEv => true
  | .errorEv _ => true
  | _ => false

/-- The SSE consumer `event_generator`: reads events in order and stops
after yielding the first `done` or `error` event. -/
def consume : List PEvent → List PEvent
  | [] => []
  | e :: rest => if isTerminal e then [e] else e :: consume rest

def isSave : Action → Bool
  | .saveTrace _ _ => true
  | _ => false

def isCallReason : Action → Bool
  | .callReason _ => true
  | _ => false

def isErrorEv : PEvent → Bool
  | .errorEv _ => true
  | _ => false

/-- The payload of a successful reasoning outcome. -/
def okVal : Except String AgentResult → AgentResult
  | .ok r => r
  | .error _ => default

theorem orchExecute_cases (s : String) (env : Env) :
    (∃ m, env.analysis = Except.error m ∧
      orchExecute s env = (preA env, Except.error (OrchError.analysisFailed m))) ∨
    (∃ configs dup, env.analysis = Except.ok configs ∧
      registerAll configs [] = Except.error dup ∧
      orchExecute s env = (preB env, Except.error (OrchError.duplicateName dup))) ∨
    (∃ configs reg rem, env.analysis = Except.ok configs ∧
      registerAll configs [] = Except.ok reg ∧
      resolveWith configs (env.setOrder configs) = Except.error rem ∧
      orchExecute s env = (preC env, Except.error (OrchError.cycle rem))) ∨
    (∃ configs reg order acts m, env.analysis = Except.ok configs ∧
      registerAll configs [] = Except.ok reg ∧
      resolveWith configs (env.setOrder configs) = Except.ok order ∧
      execLoop env reg order (preD env order) [] = (acts, Except.error m) ∧
      orchExecute s env = (acts, Except.error (OrchError.reasonFailed m))) ∨
    (∃ configs reg order acts results, env.analysis = Except.ok configs ∧
      registerAll configs [] = Except.ok reg ∧
      resolveWith configs (env.setOrder configs) = Except.ok order ∧
      execLoop env reg order (preD env order) [] = (acts, Except.ok results) ∧
      orchExecute s env = (acts ++ [Action.emit (.statusEv "Saving execution trace..."),
          Action.saveTrace s order, Action.emit .orchestrationCompleted],
        Except.ok ⟨s, configs.length, order, env.memoryContext, results⟩)) := by
  rcases henv : env.analysis with m | configs
  · exact Or.inl ⟨m, rfl, by simp only [orchExecute, henv]⟩
  · rcases hreg : registerAll configs [] with dup | reg
    · exact Or.inr (Or.inl ⟨configs, dup, rfl, hreg,
        by simp only [orchExecute, henv, hreg]⟩)
    · rcases hres : resolveWith configs (env.setOrder configs) with rem | order
      · exact Or.inr (Or.inr (Or.inl ⟨configs, reg, rem, rfl, hreg, hres,
          by simp only [orchExecute, henv, hreg, hres]⟩))
      · rcases hloop : execLoop env reg order (preD env order) [] with ⟨acts, res⟩
        rcases res with m | results
        · exact Or.inr (Or.inr (Or.inr (Or.inl ⟨configs, reg, order, acts, m,
            rfl, hreg, hres, hloop, by simp only [orchExecute, henv, hreg, hres, hloop]⟩)))
        · exact Or.inr (Or.inr (Or.inr (Or.inr ⟨configs, reg, order, acts, results,
            rfl, hreg, hres, hloop, by simp only [orchExecute, henv, hreg, hres, hloop]⟩)))

theorem registerAll_ok_keys :
    ∀ (configs : List WorkSpec) (r0 r : List (String × BAgent)),
      registerAll configs r0 = Except.ok r →
      r = r0 ++ configs.map fun c => (c.name, mkAgent c) := by
  intro configs
  induction configs with
  | nil =>
    intro r0 r h
    simp only [registerAll] at h
    cases h
    simp
  | cons cfg rest ih =>
    intro r0 r h
    rw [registerAll] at h
    rcases hra : registerAgent r0 (mkAgent cfg) with n | r2
    · rw [hra] at h
      cases h
    · rw [hra] at h
      have hr2 : r2 = r0 ++ [(cfg.name, mkAgent cfg)] := by
        unfold registerAgent at hra
        by_cases hmem : (mkAgent cfg).name ∈ r0.map Prod.fst
        · rw [if_pos hmem] at hra; cases hra
        · rw [if_neg hmem] at hra
          cases hra
          rfl
      rw [ih r2 r h, hr2]
      simp

theorem getAgent_mem_keys {r : List (String × BAgent)} {n : String}
    (h : n ∈ r.map Prod.fst) : ∃ ag, getAgent r n = some ag := by
  unfold getAgent
  have hex : ∃ x, x ∈ r ∧ (x.1 == n) = true := by
    obtain ⟨x, hx, hfx⟩ := List.mem_map.mp h
    exact ⟨x, hx, by simpa using hfx⟩
  have hs : (r.find? fun p => p.1 == n).isSome := List.find?_isSome.mpr hex
  obtain ⟨x, hx⟩ := Option.isSome_iff_exists.mp hs
  exact ⟨x.2, by rw [hx]; rfl⟩

theorem getAgent_none {r : List (String × BAgent)} {n : String}
    (h : n ∉ r.map Prod.fst) : getAgent r n = none := by
  unfold getAgent
  rw [List.find?_eq_none.mpr]
  · rfl
  · intro x hx hpx
    exact h (List.mem_map.mpr ⟨x, hx, by simpa using hpx⟩)

theorem execLoop_delta (env : Env) (reg : List (String × BAgent)) :
    ∀ (order : List String) (acts : List Action) (res : List AgentResult),
      ∃ ds, (execLoop env reg order acts res).1 = acts ++ ds ∧
        ∀ a ∈ ds, (∃ n, a = Action.emit (PEvent.agentExecuting n)) ∨
          (∃ n, a = Action.callReason n) ∨
          (∃ r, a = Action.emit (PEvent.agentCompleted r)) := by
  intro order
  induction order with
  | nil =>
    intro acts res
    exact ⟨[], by simp [execLoop], by simp⟩
  | cons n rest ih =>
    intro acts res
    rcases hg : getAgent reg n with _ | ag
    · obtain ⟨ds, h1, h2⟩ := ih acts res
      refine ⟨ds, ?_, h2⟩
      simp only [execLoop, hg]
      exact h1
    · rcases hre : env.reason n with m | r
      · refine ⟨[Action.emit (.agentExecuting n), Action.callReason n], ?_, ?_⟩
        · simp only [execLoop, hg, hre]
        · intro a ha
          rcases List.mem_cons.mp ha with rfl | ha2
          · exact Or.inl ⟨n, rfl⟩
          · rcases List.mem_cons.mp ha2 with rfl | ha3
            · exact Or.inr (Or.inl ⟨n, rfl⟩)
            · exact absurd ha3 (List.not_mem_nil _)
      · obtain ⟨ds, h1, h2⟩ := ih
          (acts ++ [Action.emit (.agentExecuting n), Action.callReason n,
            Action.emit (.agentCompleted r)]) (res ++ [r])
        refine ⟨[Action.emit (.agentExecuting n), Action.callReason n,
          Action.emit (.agentCompleted r)] ++ ds, ?_, ?_⟩
        · simp only [execLoop, hg, hre]
          rw [h1, List.append_assoc]
        · intro a ha
          rcases List.mem_append.mp ha with ha1 | ha2
          · rcases List.mem_cons.mp ha1 with rfl | ha3
            · exact Or.inl ⟨n, rfl⟩
            · rcases List.mem_cons.mp ha3 with rfl | ha4
              · exact Or.inr (Or.inl ⟨n, rfl⟩)
              · rcases List.mem_cons.mp ha4 with rfl | ha5
                · exact Or.inr (Or.inr ⟨r, rfl⟩)
                · exact absurd ha5 (List.not_mem_nil _)
          · exact h2 a ha2

theorem execLoop_ok (env : Env) (reg : List (String × BAgent)) :
    ∀ (order : List String) (acts : List Action) (res : List AgentResult),
      (∀ n ∈ order, n ∈ reg.map Prod.fst) →
      (∀ n ∈ order, ∃ r, env.reason n = Except.ok r) →
      execLoop env reg order acts res =
        (acts ++ order.flatMap (fun n => [Action.emit (.agentExecuting n),
            Action.callReason n, Action.emit (.agentCompleted (okVal (env.reason n)))]),
          Except.ok (res ++ order.map fun n => okVal (env.reason n))) := by
  intro order
  induction order with
  | nil =>
    intro acts res _ _
    simp [execLoop]
  | cons n rest ih =>
    intro acts res hkeys hok
    obtain ⟨ag, hg⟩ := getAgent_mem_keys (hkeys n (List.mem_cons_self _ _))
    obtain ⟨r, hre⟩ := hok n (List.mem_cons_self _ _)
    have hrest := ih
      (acts ++ [Action.emit (.agentExecuting n), Action.callReason n,
        Action.emit (.agentCompleted r)]) (res ++ [r])
      (fun m hm => hkeys m (List.mem_cons_of_mem _ hm))
      (fun m hm => hok m (List.mem_cons_of_mem _ hm))
    simp only [execLoop, hg, hre]
    rw [hrest]
    simp [List.flatMap_cons, okVal, hre, List.append_assoc]

theorem execLoop_ok_reasons (env : Env) (reg : List (String × BAgent)) :
    ∀ (order : List String) (acts : List Action) (res : List AgentResult)
      (acts2 : List Action) (results2 : List AgentResult),
      (∀ n ∈ order, n ∈ reg.map Prod.fst) →
      execLoop env reg order acts res = (acts2, Except.ok results2) →
      ∀ n ∈ order, ∃ r, env.reason n = Except.ok r := by
  intro order
  induction order with
  | nil =>
    intro _ _ _ _ _ _ n hn
    exact absurd hn (List.not_mem_nil _)
  | cons n rest ih =>
    intro acts res acts2 results2 hkeys h m hm
    obtain ⟨ag, hg⟩ := getAgent_mem_keys (hkeys n (List.mem_cons_self _ _))
    rcases hre : env.reason n with msg | r
    · rw [execLoop] at h
      rw [hg, hre] at h
      simp at h
    · rcases List.mem_cons.mp hm with rfl | hm2
      · exact ⟨r, hre⟩
      · rw [execLoop] at h
        rw [hg, hre] at h
        exact ih _ _ _ _ (fun x hx => hkeys x (List.mem_cons_of_mem _ hx)) h m hm2

theorem pre_shape (env : Env) (order : List String) :
    ∀ a ∈ preD env order, (∃ st, a = Action.emit (PEvent.statusEv st)) ∨
      a = Action.emit (PEvent.memoryRetrieved env.memoryContext) ∨
      a = Action.emit PEvent.agentsDesigned ∨
      a = Action.emit (PEvent.dependencyResolved order) := by
  intro a ha
  simp [preD, preC, preB, preA] at ha
  rcases ha with rfl | rfl | rfl | rfl | rfl | rfl | rfl | rfl <;> simp

theorem preD_emits (env : Env) (order : List String) :
    ∀ a ∈ preD env order, ∃ e, a = Action.emit e := by
  intro a ha
  rcases pre_shape env order a ha with ⟨st, rfl⟩ | rfl | rfl | rfl <;> exact ⟨_, rfl⟩

theorem emit_not_call_save {a : Action} (h : ∃ e, a = Action.emit e) :
    isCallReason a = false ∧ isSave a = false := by
  rcases h with ⟨e, rfl⟩
  exact ⟨rfl, rfl⟩

theorem mem_preB_preD (env : Env) (order : List String) {a : Action}
    (h : a ∈ preB env) : a ∈ preD env order := by
  unfold preD preC
  exact List.mem_append.mpr (Or.inl (List.mem_append.mpr (Or.inl h)))

theorem mem_preC_preD (env : Env) (order : List String) {a : Action}
    (h : a ∈ preC env) : a ∈ preD env order :=
  List.mem_append.mpr (Or.inl h)

theorem resolveWith_cycle_error {configs : List WorkSpec} {setOrder : List String}
    (hperm : List.Perm setOrder (namesOf configs))
    (hcyc : ∃ n, Relation.TransGen (edgeStep (inSetEdges configs setOrder)) n n) :
    resolveWith configs setOrder =
      Except.error (setOrder.filter fun n =>
        decide (n ∉ kahnOut (inSetEdges configs setOrder) setOrder)) ∧
    (setOrder.filter fun n =>
      decide (n ∉ kahnOut (inSetEdges configs setOrder) setOrder)) ≠ [] ∧
    (setOrder.filter fun n =>
      decide (n ∉ kahnOut (inSetEdges configs setOrder) setOrder)).Nodup ∧
    ∀ x, x ∈ (setOrder.filter fun n =>
        decide (n ∉ kahnOut (inSetEdges configs setOrder) setOrder)) ↔
      x ∈ setOrder ∧ OnOrDownstream (inSetEdges configs setOrder) x := by
  have hnd := nodup_of_perm_names hperm
  have hss := names_sub_of_perm hperm
  have hE1 := @inSetEdges_src configs setOrder
  have hE2 := inSetEdges_dst hss
  have hshort := kahnOut_short_of_cycle hnd hE2 hcyc
  have hneq : ¬((kahnOut (inSetEdges configs setOrder) setOrder).length =
      setOrder.length) := by omega
  refine ⟨by rw [resolveWith_eq, if_neg hneq], ?_, hnd.filter _, ?_⟩
  · obtain ⟨n, hn⟩ := hcyc
    have hnso : n ∈ setOrder := by
      obtain ⟨e, heE, h2⟩ := transGen_dst hn
      exact h2 ▸ hE2 e heE
    have hnout := out_not_mem_of_downstream hnd hE2 n ⟨n, hn, Or.inl rfl⟩
    exact List.ne_nil_of_mem (List.mem_filter.mpr ⟨hnso, by simpa using hnout⟩)
  · intro x
    constructor
    · intro hx
      have hxso := List.mem_of_mem_filter hx
      have hxout : x ∉ kahnOut (inSetEdges configs setOrder) setOrder := by
        simpa using List.of_mem_filter hx
      exact ⟨hxso, downstream_of_missing hnd hE1 hE2 x hxso hxout⟩
    · rintro ⟨hxso, hdown⟩
      exact List.mem_filter.mpr
        ⟨hxso, by simpa using out_not_mem_of_downstream hnd hE2 x hdown⟩

/-- The two-spec input `A depends on B, B depends on A`. -/
def abConfigs : List WorkSpec :=
  [⟨"A", "r", [], ["B"]⟩, ⟨"B", "r", [], ["A"]⟩]

/-- C2: when the in-set dependency subgraph has a cycle, the resolver
fails with an error naming exactly the unresolved names (those on or
downstream of a cycle); the pipeline raises this failure before any
agent execute call and before any trace save; and for `A depends on B,
B depends on A` the error names exactly the set of A and B. -/
theorem C2_cycle (configs : List WorkSpec) (setOrder : List String)
    (hperm : List.Perm setOrder (namesOf configs))
    (hcyc : ∃ n, Relation.TransGen (edgeStep (inSetEdges configs setOrder)) n n) :
    (∃ rem, resolveWith configs setOrder = Except.error rem ∧
      rem ≠ [] ∧ rem.Nodup ∧
      (∀ x, x ∈ rem ↔ x ∈ setOrder ∧ OnOrDownstream (inSetEdges configs setOrder) x)) ∧
    (∀ scenario env, env.analysis = Except.ok configs →
      env.setOrder configs = setOrder →
      (∃ e, (orchExecute scenario env).2 = Except.error e) ∧
      ∀ a ∈ (orchExecute scenario env).1,
        isCallReason a = false ∧ isSave a = false) ∧
    (∀ so2, List.Perm so2 ["A", "B"] →
      resolveWith abConfigs so2 = Except.error so2) := by
  obtain ⟨hrw, hne, hnd2, hchar⟩ := resolveWith_cycle_error hperm hcyc
  refine ⟨⟨_, hrw, hne, hnd2, hchar⟩, ?_, ?_⟩
  · intro scenario env henv hso
    rcases orchExecute_cases scenario env with
      ⟨m, ha, heq⟩ | ⟨cfgs, dup, ha, hb, heq⟩ | ⟨cfgs, reg, rem, ha, hb, hc, heq⟩ |
      ⟨cfgs, reg, order, acts, m, ha, hb, hc, hd, heq⟩ |
      ⟨cfgs, reg, order, acts, results, ha, hb, hc, hd, heq⟩
    · rw [henv] at ha
      cases ha
    · have hcfgs : cfgs = configs := by
        rw [henv] at ha
        exact (Except.ok.inj ha).symm
      refine ⟨⟨_, by rw [heq]⟩, ?_⟩
      intro a hax
      rw [heq] at hax
      exact emit_not_call_save (preD_emits env [] _ (mem_preB_preD env [] hax))
    · refine ⟨⟨_, by rw [heq]⟩, ?_⟩
      intro a hax
      rw [heq] at hax
      exact emit_not_call_save (preD_emits env [] _ (mem_preC_preD env [] hax))
    · have hcfgs : cfgs = configs := by
        rw [henv] at ha
        exact (Except.ok.inj ha).symm
      subst hcfgs
      rw [hso, hrw] at hc
      cases hc
    · have hcfgs : cfgs = configs := by
        rw [henv] at ha
        exact (Except.ok.inj ha).symm
      subst hcfgs
      rw [hso, hrw] at hc
      cases hc
  · have hall : ∀ l ∈ (["A", "B"] : List String).permutations',
        resolveWith abConfigs l = Except.error l := by decide
    intro so2 hso2
    exact hall so2 (List.mem_permutations'.mpr hso2)

/-- Witness for C2 at the `A depends on B, B depends on A` input. -/
theorem C2_cycle_witness :
    List.Perm ["A", "B"] (namesOf abConfigs) ∧
    (∃ n, Relation.TransGen (edgeStep (inSetEdges abConfigs ["A", "B"])) n n) ∧
    ((∃ rem, resolveWith abConfigs ["A", "B"] = Except.error rem ∧
      rem ≠ [] ∧ rem.Nodup ∧
      (∀ x, x ∈ rem ↔
        x ∈ ["A", "B"] ∧ OnOrDownstream (inSetEdges abConfigs ["A", "B"]) x)) ∧
    (∀ scenario env, env.analysis = Except.ok abConfigs →
      env.setOrder abConfigs = ["A", "B"] →
      (∃ e, (orchExecute scenario env).2 = Except.error e) ∧
      ∀ a ∈ (orchExecute scenario env).1,
        isCallReason a = false ∧ isSave a = false) ∧
    (∀ so2, List.Perm so2 ["A", "B"] →
      resolveWith abConfigs so2 = Except.error so2)) := by
  have hperm : List.Perm ["A", "B"] (namesOf abConfigs) := List.Perm.refl _
  have hcyc : ∃ n, Relation.TransGen (edgeStep (inSetEdges abConfigs ["A", "B"])) n n := by
    have h1 : edgeStep (inSetEdges abConfigs ["A", "B"]) "A" "B" := by
      show ("A", "B") ∈ inSetEdges abConfigs ["A", "B"]
      decide
    have h2 : edgeStep (inSetEdges abConfigs ["A", "B"]) "B" "A" := by
      show ("B", "A") ∈ inSetEdges abConfigs ["A", "B"]
      decide
    exact ⟨"A", Relation.TransGen.head h1 (Relation.TransGen.single h2)⟩
  exact ⟨hperm, hcyc, C2_cycle _ _ hperm hcyc⟩

/-- Two independent specs, B first in the input. -/
def c3Pair : List WorkSpec :=
  [⟨"B", "r", [], []⟩, ⟨"A", "r", [], []⟩]

/-- The three-spec chain of the spec example: A with no dependencies,
B depending on A, C depending on A and B. -/
def c3Chain : List WorkSpec :=
  [⟨"A", "r", [], []⟩, ⟨"B", "r", [], ["A"]⟩, ⟨"C", "r", [], ["A", "B"]⟩]

/-- C3 counterexample: the ready queue is filled by iterating the Python
set `all_agents`, not the input list.  For the input `[B, A]` (both
immediately ready) the claimed input-order tie-break mandates the output
`[B, A]`; under the admissible set iteration order `[A, B]` (a
permutation of the name set) the code outputs `[A, B]` instead. -/
theorem C3_counterexample :
    List.Perm ["A", "B"] (namesOf c3Pair) ∧
    resolveWith c3Pair ["A", "B"] = Except.ok ["A", "B"] ∧
    c3Pair.map WorkSpec.name = ["B", "A"] ∧
    (["A", "B"] : List String) ≠ ["B", "A"] :=
  ⟨List.Perm.swap "B" "A" [], rfl, rfl, by decide⟩

/-- C3 amended: the resolver output is a function of the input and of
the set iteration order, and only the latter breaks ties among
simultaneously ready names; for the spec example `A, B depends on A,
C depends on A and B` the output is `[A, B, C]` under every admissible
set iteration order, as the queue never holds two names at once. -/
theorem C3_amended (so : List String) (hperm : List.Perm so ["A", "B", "C"]) :
    resolveWith c3Chain so = Except.ok ["A", "B", "C"] ∧
    resolve c3Chain = Except.ok ["A", "B", "C"] := by
  have hall : ∀ l ∈ (["A", "B", "C"] : List String).permutations',
      resolveWith c3Chain l = Except.ok ["A", "B", "C"] := by decide
  exact ⟨hall so (List.mem_permutations'.mpr hperm), rfl⟩

/-- Witness for the amended C3 at the reversed set iteration order. -/
theorem C3_amended_witness :
    List.Perm ["C", "B", "A"] ["A", "B", "C"] ∧
    (resolveWith c3Chain ["C", "B", "A"] = Except.ok ["A", "B", "C"] ∧
      resolve c3Chain = Except.ok ["A", "B", "C"]) := by
  have hp : List.Perm ["C", "B", "A"] ["A", "B", "C"] :=
    List.mem_permutations'.mp (by decide)
  exact ⟨hp, C3_amended _ hp⟩

theorem mem_eventsOf {acts : List Action} {e : PEvent} :
    e ∈ eventsOf acts ↔ Action.emit e ∈ acts := by
  unfold eventsOf
  rw [List.mem_filterMap]
  constructor
  · rintro ⟨a, ha, hae⟩
    cases a with
    | emit e2 =>
      simp only [Option.some.injEq] at hae
      exact hae ▸ ha
    | callReason n => cases hae
    | saveTrace s ags => cases hae
  · intro h
    exact ⟨_, h, rfl⟩

theorem preD_event_nonterminal (env : Env) (order : List String) :
    ∀ e, Action.emit e ∈ preD env order → isTerminal e = false := by
  intro e he
  rcases pre_shape env order _ he with ⟨st, heq⟩ | heq | heq | heq
  · cases Action.emit.inj heq; rfl
  · cases Action.emit.inj heq; rfl
  · cases Action.emit.inj heq; rfl
  · cases Action.emit.inj heq; rfl

theorem loopActs_emit_nonterminal {env : Env} {reg : List (String × BAgent)}
    {order : List String} {acts : List Action}
    {res2 : Except String (List AgentResult)}
    (hd : execLoop env reg order (preD env order) [] = (acts, res2)) :
    ∀ e, Action.emit e ∈ acts → isTerminal e = false := by
  intro e he
  obtain ⟨ds, hds, hcls⟩ := execLoop_delta env reg order (preD env order) []
  rw [hd] at hds
  simp only at hds
  rw [hds] at he
  rcases List.mem_append.mp he with h1 | h2
  · exact preD_event_nonterminal env order e h1
  · rcases hcls _ h2 with ⟨n, hn⟩ | ⟨n, hn⟩ | ⟨r, hn⟩
    · cases Action.emit.inj hn; rfl
    · cases hn
    · cases Action.emit.inj hn; rfl

theorem orch_emit_nonterminal (s : String) (env : Env) :
    ∀ e, Action.emit e ∈ (orchExecute s env).1 → isTerminal e = false := by
  intro e he
  rcases orchExecute_cases s env with
    ⟨m, _, heq⟩ | ⟨cfgs, dup, _, _, heq⟩ | ⟨cfgs, reg, rem, _, _, _, heq⟩ |
    ⟨cfgs, reg, order, acts, m, _, _, _, hd, heq⟩ |
    ⟨cfgs, reg, order, acts, results, _, _, _, hd, heq⟩
  · rw [heq] at he
    exact preD_event_nonterminal env [] e
      (mem_preB_preD env [] (List.mem_append.mpr (Or.inl he)))
  · rw [heq] at he
    exact preD_event_nonterminal env [] e (mem_preB_preD env [] he)
  · rw [heq] at he
    exact preD_event_nonterminal env [] e (mem_preC_preD env [] he)
  · rw [heq] at he
    exact loopActs_emit_nonterminal hd e he
  · rw [heq] at he
    rcases List.mem_append.mp he with h1 | h2
    · exact loopActs_emit_nonterminal hd e h1
    · rcases List.mem_cons.mp h2 with h3 | h4
      · cases Action.emit.inj h3.symm; rfl
      · rcases List.mem_cons.mp h4 with h5 | h6
        · cases h5
        · rcases List.mem_cons.mp h6 with h7 | h8
          · cases Action.emit.inj h7.symm; rfl
          · exact absurd h8 (List.not_mem_nil _)

theorem isTerminal_of_isErrorEv {x : PEvent} (h : isErrorEv x = true) :
    isTerminal x = true := by
  cases x <;> first | rfl | cases h

theorem consume_append_terminal {p : List PEvent} (hp : ∀ x ∈ p, isTerminal x = false)
    {t : PEvent} (ht : isTerminal t = true) (rest : List PEvent) :
    consume (p ++ t :: rest) = p ++ [t] := by
  induction p with
  | nil =>
    simp only [List.nil_append, consume]
    rw [if_pos ht]
  | cons e p ih =>
    have he := hp e (List.mem_cons_self _ _)
    simp only [List.cons_append, consume]
    rw [if_neg (by simp [he])]
    show e :: consume (p ++ t :: rest) = e :: (p ++ [t])
    rw [ih fun x hx => hp x (List.mem_cons_of_mem _ hx)]

/-- C4: the producer always emits exactly one terminal `done` event, as
the last event of the stream; an uncaught pipeline error yields exactly
one `error` event carrying its message, immediately followed by the
`done` event; and the consumer stops at the first `done` or `error`
event. -/
theorem C4_stream_termination (scenario : String) (env : Env) :
    ((runOrchestrator scenario env).count PEvent.doneEv = 1 ∧
      (runOrchestrator scenario env).getLast? = some PEvent.doneEv) ∧
    (∀ err, (orchExecute scenario env).2 = Except.error err →
      runOrchestrator scenario env =
        eventsOf (orchExecute scenario env).1 ++
          [PEvent.errorEv err.msg, PEvent.doneEv] ∧
      (∀ x ∈ eventsOf (orchExecute scenario env).1, isTerminal x = false) ∧
      (runOrchestrator scenario env).countP isErrorEv = 1 ∧
      consume (runOrchestrator scenario env) =
        eventsOf (orchExecute scenario env).1 ++ [PEvent.errorEv err.msg]) ∧
    (∀ resp, (orchExecute scenario env).2 = Except.ok resp →
      runOrchestrator scenario env =
        eventsOf (orchExecute scenario env).1 ++ [PEvent.doneEv] ∧
      (runOrchestrator scenario env).countP isErrorEv = 0 ∧
      consume (runOrchestrator scenario env) =
        eventsOf (orchExecute scenario env).1 ++ [PEvent.doneEv]) := by
  have hnt : ∀ x ∈ eventsOf (orchExecute scenario env).1, isTerminal x = false :=
    fun x hx => orch_emit_nonterminal scenario env x (mem_eventsOf.mp hx)
  have hcd : (eventsOf (orchExecute scenario env).1).count PEvent.doneEv = 0 :=
    List.count_eq_zero.mpr fun hmem => by
      have h := hnt _ hmem
      simp [isTerminal] at h
  have hce : (eventsOf (orchExecute scenario env).1).countP isErrorEv = 0 :=
    List.countP_eq_zero.mpr fun x hx hpx => by
      have := hnt x hx
      rw [isTerminal_of_isErrorEv hpx] at this
      cases this
  refine ⟨⟨?_, ?_⟩, ?_, ?_⟩
  · rcases hres : (orchExecute scenario env).2 with err | resp
    · simp only [runOrchestrator, hres]
      rw [List.count_append, List.count_append, hcd]
      rfl
    · simp only [runOrchestrator, hres]
      rw [List.count_append, List.count_append, hcd]
      rfl
  · rcases hres : (orchExecute scenario env).2 with err | resp
    · simp only [runOrchestrator, hres]
      exact List.getLast?_concat _
    · simp only [runOrchestrator, hres]
      exact List.getLast?_concat _
  · intro err herr
    have hstream : runOrchestrator scenario env =
        eventsOf (orchExecute scenario env).1 ++
          [PEvent.errorEv err.msg, PEvent.doneEv] := by
      simp [runOrchestrator, herr]
    refine ⟨hstream, hnt, ?_, ?_⟩
    · rw [hstream, List.countP_append, hce]
      rfl
    · rw [hstream]
      exact consume_append_terminal hnt (t := PEvent.errorEv err.msg) rfl [PEvent.doneEv]
  · intro resp hok
    have hstream : runOrchestrator scenario env =
        eventsOf (orchExecute scenario env).1 ++ [PEvent.doneEv] := by
      simp [runOrchestrator, hok]
    refine ⟨hstream, ?_, ?_⟩
    · rw [hstream, List.countP_append, hce]
      rfl
    · rw [hstream]
      exact consume_append_terminal hnt (t := PEvent.doneEv) rfl []

/-- An environment whose single agent fails its reasoning call. -/
def c4Env : Env :=
  ⟨[], Except.ok [⟨"A", "r", [], []⟩], fun cfgs => namesOf cfgs,
    fun _ => Except.error "boom"⟩

/-- Witness for C4: a run whose reasoning call raises mid-execution. -/
theorem C4_stream_termination_witness :
    (orchExecute "s" c4Env).2 = Except.error (OrchError.reasonFailed "boom") ∧
    (runOrchestrator "s" c4Env =
        eventsOf (orchExecute "s" c4Env).1 ++
          [PEvent.errorEv (OrchError.reasonFailed "boom").msg, PEvent.doneEv] ∧
      (∀ x ∈ eventsOf (orchExecute "s" c4Env).1, isTerminal x = false) ∧
      (runOrchestrator "s" c4Env).countP isErrorEv = 1 ∧
      consume (runOrchestrator "s" c4Env) =
        eventsOf (orchExecute "s" c4Env).1 ++
          [PEvent.errorEv (OrchError.reasonFailed "boom").msg]) := by
  have h : (orchExecute "s" c4Env).2 = Except.error (OrchError.reasonFailed "boom") := by
    decide
  exact ⟨h, (C4_stream_termination "s" c4Env).2.1 _ h⟩

theorem not_save_of_emit {a : Action} (h : ∃ e, a = Action.emit e) :
    isSave a = false :=
  (emit_not_call_save h).2

theorem loopActs_no_save {env : Env} {reg : List (String × BAgent)}
    {order : List String} {acts : List Action}
    {res2 : Except String (List AgentResult)}
    (hd : execLoop env reg order (preD env order) [] = (acts, res2)) :
    acts.countP isSave = 0 := by
  obtain ⟨ds, hds, hcls⟩ := execLoop_delta env reg order (preD env order) []
  rw [hd] at hds
  simp only at hds
  rw [hds, List.countP_append]
  have h1 : (preD env order).countP isSave = 0 :=
    List.countP_eq_zero.mpr fun a ha hpa => by
      rw [not_save_of_emit (preD_emits env order a ha)] at hpa
      cases hpa
  have h2 : ds.countP isSave = 0 :=
    List.countP_eq_zero.mpr fun a ha hpa => by
      rcases hcls _ ha with ⟨n, rfl⟩ | ⟨n, rfl⟩ | ⟨r, rfl⟩ <;> cases hpa
  omega

/-- C5: a run persists at most one trace; an aborted run (any raised
error, in particular a reasoning-service failure during the per-agent
loop) persists none; and on success the single `save` happens strictly
after every agent-execution call, followed only by the
`orchestration_completed` event. -/
theorem C5_trace_once (scenario : String) (env : Env) :
    ((orchExecute scenario env).1.countP isSave ≤ 1) ∧
    (∀ err, (orchExecute scenario env).2 = Except.error err →
      (orchExecute scenario env).1.countP isSave = 0) ∧
    (∀ resp, (orchExecute scenario env).2 = Except.ok resp →
      ∃ p, (orchExecute scenario env).1 =
          p ++ [Action.emit (.statusEv "Saving execution trace..."),
            Action.saveTrace scenario resp.executionOrder,
            Action.emit .orchestrationCompleted] ∧
        p.countP isSave = 0 ∧
        ∀ a ∈ (orchExecute scenario env).1, isCallReason a = true → a ∈ p) := by
  have hzero : ∀ (l : List Action), (∀ a ∈ l, ∃ e, a = Action.emit e) →
      l.countP isSave = 0 := fun l hl =>
    List.countP_eq_zero.mpr fun a ha hpa => by
      rw [not_save_of_emit (hl a ha)] at hpa
      cases hpa
  rcases orchExecute_cases scenario env with
    ⟨m, ha, heq⟩ | ⟨cfgs, dup, ha, hb, heq⟩ | ⟨cfgs, reg, rem, ha, hb, hc, heq⟩ |
    ⟨cfgs, reg, order, acts, m, ha, hb, hc, hd, heq⟩ |
    ⟨cfgs, reg, order, acts, results, ha, hb, hc, hd, heq⟩
  · have hcount : (orchExecute scenario env).1.countP isSave = 0 := by
      rw [heq]
      exact hzero _ fun a hax =>
        preD_emits env [] a (mem_preB_preD env [] (List.mem_append.mpr (Or.inl hax)))
    refine ⟨by omega, fun err _ => hcount, ?_⟩
    intro resp hresp
    rw [heq] at hresp
    cases hresp
  · have hcount : (orchExecute scenario env).1.countP isSave = 0 := by
      rw [heq]
      exact hzero _ fun a hax => preD_emits env [] a (mem_preB_preD env [] hax)
    refine ⟨by omega, fun err _ => hcount, ?_⟩
    intro resp hresp
    rw [heq] at hresp
    cases hresp
  · have hcount : (orchExecute scenario env).1.countP isSave = 0 := by
      rw [heq]
      exact hzero _ fun a hax => preD_emits env [] a (mem_preC_preD env [] hax)
    refine ⟨by omega, fun err _ => hcount, ?_⟩
    intro resp hresp
    rw [heq] at hresp
    cases hresp
  · have hcount : (orchExecute scenario env).1.countP isSave = 0 := by
      rw [heq]
      exact loopActs_no_save hd
    refine ⟨by omega, fun err _ => hcount, ?_⟩
    intro resp hresp
    rw [heq] at hresp
    cases hresp
  · have h1 : (orchExecute scenario env).1 =
        acts ++ [Action.emit (.statusEv "Saving execution trace..."),
          Action.saveTrace scenario order, Action.emit .orchestrationCompleted] := by
      rw [heq]
    have hcnt0 : acts.countP isSave = 0 := loopActs_no_save hd
    refine ⟨?_, ?_, ?_⟩
    · rw [h1, List.countP_append, hcnt0]
      rfl
    · intro err herr
      rw [heq] at herr
      cases herr
    · intro resp hresp
      rw [heq] at hresp
      have hr : resp = ⟨scenario, cfgs.length, order, env.memoryContext, results⟩ :=
        (Except.ok.inj hresp).symm
      refine ⟨acts, by rw [h1, hr], hcnt0, ?_⟩
      intro a hax hcall
      rw [h1] at hax
      rcases List.mem_append.mp hax with h2 | h3
      · exact h2
      · rcases List.mem_cons.mp h3 with rfl | h4
        · cases hcall
        · rcases List.mem_cons.mp h4 with rfl | h5
          · cases hcall
          · rcases List.mem_cons.mp h5 with rfl | h6
            · cases hcall
            · exact absurd h6 (List.not_mem_nil _)

/-- An environment whose single agent succeeds. -/
def c5Env : Env :=
  ⟨[], Except.ok [⟨"A", "r", [], []⟩], fun cfgs => namesOf cfgs,
    fun n => Except.ok ⟨n, "completed", "done A"⟩⟩

/-- Witness for C5: one aborted run saving nothing and one successful
run saving exactly once, after the loop. -/
theorem C5_trace_once_witness :
    ((orchExecute "s" c4Env).2 = Except.error (OrchError.reasonFailed "boom") ∧
      (orchExecute "s" c4Env).1.countP isSave = 0) ∧
    ((orchExecute "s" c5Env).2 =
        Except.ok ⟨"s", 1, ["A"], [], [⟨"A", "completed", "done A"⟩]⟩ ∧
      ∃ p, (orchExecute "s" c5Env).1 =
          p ++ [Action.emit (.statusEv "Saving execution trace..."),
            Action.saveTrace "s"
              (Response.executionOrder ⟨"s", 1, ["A"], [], [⟨"A", "completed", "done A"⟩]⟩),
            Action.emit .orchestrationCompleted] ∧
        p.countP isSave = 0 ∧
        ∀ a ∈ (orchExecute "s" c5Env).1, isCallReason a = true → a ∈ p) := by
  have h4 : (orchExecute "s" c4Env).2 = Except.error (OrchError.reasonFailed "boom") := by
    decide
  have h5 : (orchExecute "s" c5Env).2 =
      Except.ok ⟨"s", 1, ["A"], [], [⟨"A", "completed", "done A"⟩]⟩ := by
    decide
  exact ⟨⟨h4, (C5_trace_once "s" c4Env).2.1 _ h4⟩,
    ⟨h5, (C5_trace_once "s" c5Env).2.2 _ h5⟩⟩

/-- The event kinds C6 talks about: the per-agent pair, the completion
event, and the terminal event. -/
def isRelevant : PEvent → Bool
  | .agentExecuting _ => true
  | .agentCompleted _ => true
  | .orchestrationCompleted => true
  | .doneEv => true
  | _ => false

theorem eventsOf_append (l1 l2 : List Action) :
    eventsOf (l1 ++ l2) = eventsOf l1 ++ eventsOf l2 :=
  List.filterMap_append l1 l2 _

theorem resolveWith_ok_sub {configs : List WorkSpec} {setOrder order : List String}
    (hperm : List.Perm setOrder (namesOf configs))
    (h : resolveWith configs setOrder = Except.ok order) :
    ∀ x ∈ order, x ∈ setOrder := by
  have hnd := nodup_of_perm_names hperm
  have hss := names_sub_of_perm hperm
  have hE2 := inSetEdges_dst hss
  obtain ⟨_, hsub, _, _⟩ := kahnOut_spec (inSetEdges configs setOrder) setOrder hnd hE2
  rw [resolveWith_eq] at h
  by_cases hlen : (kahnOut (inSetEdges configs setOrder) setOrder).length = setOrder.length
  · rw [if_pos hlen] at h
    cases Except.ok.inj h
    exact hsub
  · rw [if_neg hlen] at h
    cases h

theorem events_preD_filter (env : Env) (order : List String) :
    (eventsOf (preD env order)).filter isRelevant = [] := rfl

theorem events_filter_triple (env : Env) (order : List String) :
    (eventsOf (order.flatMap fun n => [Action.emit (.agentExecuting n),
        Action.callReason n,
        Action.emit (.agentCompleted (okVal (env.reason n)))])).filter isRelevant =
      order.flatMap fun n => [PEvent.agentExecuting n,
        PEvent.agentCompleted (okVal (env.reason n))] := by
  induction order with
  | nil => rfl
  | cons n rest ih =>
    rw [List.flatMap_cons, List.flatMap_cons, eventsOf_append, List.filter_append]
    rw [ih]
    rfl

/-- C6: a fully successful run produces one `agent_executing` and one
`agent_completed` event per resolved agent, the pairs in resolved order,
followed by one `orchestration_completed` and then the `done` event —
and nothing else of those kinds appears in the stream. -/
theorem C6_success_stream (scenario : String) (env : Env) (configs : List WorkSpec)
    (resp : Response)
    (henv : env.analysis = Except.ok configs)
    (hperm : List.Perm (env.setOrder configs) (namesOf configs))
    (hok : (orchExecute scenario env).2 = Except.ok resp) :
    (runOrchestrator scenario env).filter isRelevant =
      (resp.executionOrder.flatMap fun n =>
        [PEvent.agentExecuting n, PEvent.agentCompleted (okVal (env.reason n))]) ++
      [PEvent.orchestrationCompleted, PEvent.doneEv] := by
  rcases orchExecute_cases scenario env with
    ⟨m, ha, heq⟩ | ⟨cfgs, dup, ha, hb, heq⟩ | ⟨cfgs, reg, rem, ha, hb, hc, heq⟩ |
    ⟨cfgs, reg, order, acts, m, ha, hb, hc, hd, heq⟩ |
    ⟨cfgs, reg, order, acts, results, ha, hb, hc, hd, heq⟩
  · rw [heq] at hok; cases hok
  · rw [heq] at hok; cases hok
  · rw [heq] at hok; cases hok
  · rw [heq] at hok; cases hok
  · have hcfgs : cfgs = configs := by
      rw [henv] at ha
      exact (Except.ok.inj ha).symm
    subst hcfgs
    have hkeys : reg.map Prod.fst = cfgs.map WorkSpec.name := by
      rw [registerAll_ok_keys cfgs [] reg hb]
      simp [List.map_map, Function.comp]
    have hordsub : ∀ n ∈ order, n ∈ reg.map Prod.fst := by
      intro n hn
      rw [hkeys]
      have hnso : n ∈ env.setOrder cfgs := resolveWith_ok_sub hperm hc n hn
      have hnn : n ∈ namesOf cfgs := hperm.mem_iff.mp hnso
      unfold namesOf at hnn
      exact List.mem_dedup.mp hnn
    have hreasons := execLoop_ok_reasons env reg order _ _ _ _ hordsub hd
    have hloopeq := execLoop_ok env reg order (preD env order) [] hordsub hreasons
    rw [hloopeq] at hd
    have hacts : acts = preD env order ++ order.flatMap (fun n =>
        [Action.emit (.agentExecuting n), Action.callReason n,
          Action.emit (.agentCompleted (okVal (env.reason n)))]) := by
      have h2 := congrArg Prod.fst hd
      simpa using h2.symm
    have hresp : resp = ⟨scenario, cfgs.length, order, env.memoryContext, results⟩ := by
      rw [heq] at hok
      exact (Except.ok.inj hok).symm
    have h1 : (orchExecute scenario env).1 =
        acts ++ [Action.emit (.statusEv "Saving execution trace..."),
          Action.saveTrace scenario order, Action.emit .orchestrationCompleted] := by
      rw [heq]
    have hrun : runOrchestrator scenario env =
        eventsOf (orchExecute scenario env).1 ++ [PEvent.doneEv] := by
      simp [runOrchestrator, hok]
    rw [hrun, h1, hacts, eventsOf_append, eventsOf_append, List.filter_append,
      List.filter_append, List.filter_append, events_preD_filter,
      events_filter_triple, hresp]
    simp [eventsOf, isRelevant]

/-- Witness for C6 at a one-agent successful run. -/
theorem C6_success_stream_witness :
    c5Env.analysis = Except.ok [⟨"A", "r", [], []⟩] ∧
    List.Perm (c5Env.setOrder [⟨"A", "r", [], []⟩]) (namesOf [⟨"A", "r", [], []⟩]) ∧
    (orchExecute "s" c5Env).2 =
      Except.ok ⟨"s", 1, ["A"], [], [⟨"A", "completed", "done A"⟩]⟩ ∧
    (runOrchestrator "s" c5Env).filter isRelevant =
      ((Response.executionOrder
          ⟨"s", 1, ["A"], [], [⟨"A", "completed", "done A"⟩]⟩).flatMap fun n =>
        [PEvent.agentExecuting n, PEvent.agentCompleted (okVal (c5Env.reason n))]) ++
      [PEvent.orchestrationCompleted, PEvent.doneEv] := by
  have h1 : c5Env.analysis = Except.ok [⟨"A", "r", [], []⟩] := rfl
  have h2 : List.Perm (c5Env.setOrder [⟨"A", "r", [], []⟩])
      (namesOf [⟨"A", "r", [], []⟩]) := List.Perm.refl _
  have h3 : (orchExecute "s" c5Env).2 =
      Except.ok ⟨"s", 1, ["A"], [], [⟨"A", "completed", "done A"⟩]⟩ := by decide
  exact ⟨h1, h2, h3, C6_success_stream "s" c5Env _ _ h1 h2 h3⟩

/-- C7 counterexample: a received response that parses to a JSON value
other than an object (here a list) is malformed but received, yet it is
not recovered: the `setdefault` call raises an uncaught
`AttributeError`, the call returns no result, and the agent stays in
`running`. -/
theorem C7_counterexample :
    ((mkAgent ⟨"A", "r", [], []⟩).execute
        (LLMRaw.received (some (ParsedJson.nonDict "list")))).1.status = "running" ∧
    ((mkAgent ⟨"A", "r", [], []⟩).execute
        (LLMRaw.received (some (ParsedJson.nonDict "list")))).1.status ≠ "completed" ∧
    ((mkAgent ⟨"A", "r", [], []⟩).execute
        (LLMRaw.received (some (ParsedJson.nonDict "list")))).2.1 =
      Except.error "AttributeError: list object has no attribute setdefault" :=
  ⟨rfl, by decide, rfl⟩

/-- C7 amended: a received response parsed to a JSON object drives the
agent through `running` to `completed` and yields a result carrying the
`agent`, `status` and `summary` keys, defaults substituted for whatever
the object omits; a received response with no extractable JSON is
recovered with the summary synthesized from role and responsibilities;
but a received response whose JSON is not an object propagates an
uncaught `AttributeError` exactly like an unreachable service, leaving
the agent in `running`. -/
theorem C7_agent_execute (a : BAgent) (p : PartialResult) (m ty : String) :
    ((a.execute (LLMRaw.received (some (ParsedJson.dict p)))).1.status = "completed" ∧
      (a.execute (LLMRaw.received (some (ParsedJson.dict p)))).2.2 =
        ["running", "completed"] ∧
      (a.execute (LLMRaw.received (some (ParsedJson.dict p)))).2.1 =
        Except.ok ⟨p.agent.getD a.name, p.status.getD "completed",
          p.summary.getD (a.name ++ " completed assigned tasks.")⟩) ∧
    ((a.execute (LLMRaw.received none)).1.status = "completed" ∧
      (a.execute (LLMRaw.received none)).2.2 = ["running", "completed"] ∧
      (a.execute (LLMRaw.received none)).2.1 =
        Except.ok ⟨a.name, "completed",
          a.name ++ " (" ++ a.role ++ ") completed: " ++
            String.intercalate ", " a.responsibilities⟩) ∧
    ((a.execute (LLMRaw.received (some (ParsedJson.nonDict ty)))).1.status =
        "running" ∧
      (a.execute (LLMRaw.received (some (ParsedJson.nonDict ty)))).2.1 =
        Except.error ("AttributeError: " ++ ty ++
          " object has no attribute setdefault") ∧
      (a.execute (LLMRaw.received (some (ParsedJson.nonDict ty)))).2.2 =
        ["running"]) ∧
    ((a.execute (LLMRaw.unreachable m)).1.status = "running" ∧
      (a.execute (LLMRaw.unreachable m)).2.1 = Except.error m ∧
      (a.execute (LLMRaw.unreachable m)).2.2 = ["running"]) :=
  ⟨⟨rfl, rfl, rfl⟩, ⟨rfl, rfl, rfl⟩, ⟨rfl, rfl, rfl⟩, ⟨rfl, rfl, rfl⟩⟩

/-- C8: registering an already-registered name fails with a
duplicate-name error naming it, registering a fresh name appends it,
retrieval of an absent name returns the explicit absent value, and
listing returns the registered agents in insertion order. -/
theorem C8_registry (r : List (String × BAgent)) (a : BAgent) (n : String)
    (specs : List WorkSpec) (r2 : List (String × BAgent)) :
    (a.name ∈ r.map Prod.fst → registerAgent r a = Except.error a.name) ∧
    (a.name ∉ r.map Prod.fst →
      registerAgent r a = Except.ok (r ++ [(a.name, a)])) ∧
    (n ∉ r.map Prod.fst → getAgent r n = none) ∧
    (registerAll specs [] = Except.ok r2 → listAgents r2 = specs.map mkAgent) := by
  refine ⟨?_, ?_, ?_, ?_⟩
  · intro h
    unfold registerAgent
    rw [if_pos h]
  · intro h
    unfold registerAgent
    rw [if_neg h]
  · exact getAgent_none
  · intro h
    rw [registerAll_ok_keys specs [] r2 h]
    simp [listAgents, List.map_map, Function.comp]

/-- Witness for C8: a one-entry registry rejecting a duplicate,
returning `none` for an absent name, and listing in insertion order. -/
theorem C8_registry_witness :
    ((mkAgent ⟨"A", "r", [], []⟩).name ∈
        ([("A", mkAgent ⟨"A", "r", [], []⟩)].map Prod.fst) ∧
      registerAgent [("A", mkAgent ⟨"A", "r", [], []⟩)] (mkAgent ⟨"A", "r", [], []⟩) =
        Except.error (mkAgent ⟨"A", "r", [], []⟩).name) ∧
    (("B" : String) ∉ ([("A", mkAgent ⟨"A", "r", [], []⟩)].map Prod.fst) ∧
      getAgent [("A", mkAgent ⟨"A", "r", [], []⟩)] "B" = none) ∧
    (registerAll [⟨"A", "r", [], []⟩, ⟨"B", "r", [], []⟩] [] =
        Except.ok [("A", mkAgent ⟨"A", "r", [], []⟩), ("B", mkAgent ⟨"B", "r", [], []⟩)] ∧
      listAgents [("A", mkAgent ⟨"A", "r", [], []⟩), ("B", mkAgent ⟨"B", "r", [], []⟩)] =
        [⟨"A", "r", [], []⟩, ⟨"B", "r", [], []⟩].map mkAgent) := by
  have h1 : (mkAgent ⟨"A", "r", [], []⟩).name ∈
      ([("A", mkAgent ⟨"A", "r", [], []⟩)].map Prod.fst) := by decide
  have h2 : ("B" : String) ∉ ([("A", mkAgent ⟨"A", "r", [], []⟩)].map Prod.fst) := by
    decide
  have h3 : registerAll [⟨"A", "r", [], []⟩, ⟨"B", "r", [], []⟩] [] =
      Except.ok [("A", mkAgent ⟨"A", "r", [], []⟩), ("B", mkAgent ⟨"B", "r", [], []⟩)] := by
    decide
  exact ⟨⟨h1, (C8_registry _ _ "B" [] []).1 h1⟩,
    ⟨h2, (C8_registry [("A", mkAgent ⟨"A", "r", [], []⟩)] (mkAgent ⟨"A", "r", [], []⟩)
      "B" [] []).2.2.1 h2⟩,
    ⟨h3, (C8_registry [] (mkAgent ⟨"A", "r", [], []⟩) "B"
      [⟨"A", "r", [], []⟩, ⟨"B", "r", [], []⟩] _).2.2.2 h3⟩⟩

/-- The external similarity store of section 6 of the spec, as seen by
`VectorStore`: an entry count and a ranked query returning at most
`n_results` entries (the ChromaDB contract assumed by the source). -/
structure VStore where
  count : Nat
  query : String → Nat → List String

/-- `VectorStore.retrieve_similar`: empty store short-circuits to the
empty list; otherwise the store is queried with
`actual_k = min(top_k, count)`. -/
def retrieveSimilar (store : VStore) (q : String) (topK : Nat) : List String :=
  if store.count = 0 then []
  else store.query q (min topK store.count)

/-- `MemoryManager.retrieve_context`: top-3 similarity search. -/
def retrieveContext (store : VStore) (scenario : String) : List String :=
  retrieveSimilar store scenario 3

/-- C9: `retrieve_context` returns at most 3 prior traces, and on an
empty store returns the empty sequence without error. -/
theorem C9_retrieve_context (store : VStore) (scenario : String)
    (hq : ∀ q k, (store.query q k).length ≤ k) :
    (retrieveContext store scenario).length ≤ 3 ∧
    (store.count = 0 → retrieveContext store scenario = []) := by
  constructor
  · unfold retrieveContext retrieveSimilar
    by_cases h : store.count = 0
    · rw [if_pos h]
      simp
    · rw [if_neg h]
      exact le_trans (hq _ _) (min_le_left _ _)
  · intro h
    unfold retrieveContext retrieveSimilar
    rw [if_pos h]

/-- An empty store. -/
def c9Store : VStore := ⟨0, fun _ _ => []⟩

/-- Witness for C9 at the empty store. -/
theorem C9_retrieve_context_witness :
    (∀ q k, (c9Store.query q k).length ≤ k) ∧
    (retrieveContext c9Store "x").length ≤ 3 ∧
    (c9Store.count = 0 → retrieveContext c9Store "x" = []) := by
  have hq : ∀ q k, (c9Store.query q k).length ≤ k := fun q k => by simp [c9Store]
  exact ⟨hq, (C9_retrieve_context c9Store "x" hq).1,
    (C9_retrieve_context c9Store "x" hq).2⟩

/-- C10: agent construction assigns `pending`; the only statuses any
operation ever assigns afterwards are `running` and `completed`, never
`failed`; and an execute whose reasoning call raises leaves the status
at `running`. -/
theorem C10_status_values (spec : WorkSpec) (ops : List LLMRaw) (a : BAgent)
    (m : String) :
    (mkAgent spec).status = "pending" ∧
    ((runAgent (mkAgent spec) ops).status = "pending" ∨
      (runAgent (mkAgent spec) ops).status = "running" ∨
      (runAgent (mkAgent spec) ops).status = "completed") ∧
    (runAgent (mkAgent spec) ops).status ≠ "failed" ∧
    (a.execute (LLMRaw.unreachable m)).1.status = "running" ∧
    (∀ raw, (a.execute raw).2.2 = ["running"] ∨
      (a.execute raw).2.2 = ["running", "completed"]) := by
  have key : ∀ (ops2 : List LLMRaw) (b : BAgent),
      (b.status = "pending" ∨ b.status = "running" ∨ b.status = "completed") →
      ((runAgent b ops2).status = "pending" ∨
        (runAgent b ops2).status = "running" ∨
        (runAgent b ops2).status = "completed") := by
    intro ops2
    induction ops2 with
    | nil => intro b hb; exact hb
    | cons raw rest ih =>
      intro b _
      apply ih
      unfold BAgent.execute
      rcases hr : reasonAsAgent b.name b.role b.responsibilities raw with m2 | r
      · exact Or.inr (Or.inl rfl)
      · exact Or.inr (Or.inr rfl)
  have htri := key ops (mkAgent spec) (Or.inl rfl)
  refine ⟨rfl, htri, ?_, rfl, ?_⟩
  · rcases htri with h | h | h <;> rw [h] <;> decide
  · intro raw
    unfold BAgent.execute
    rcases hr : reasonAsAgent a.name a.role a.responsibilities raw with m2 | r
    · exact Or.inl rfl
    · exact Or.inr rfl

/-- Witness for C7 at a concrete agent and responses. -/
theorem C7_agent_execute_witness :
    (((mkAgent ⟨"A", "r", ["t1", "t2"], []⟩).execute
        (LLMRaw.received (some (ParsedJson.dict
          ⟨none, none, some "did work"⟩)))).1.status = "completed" ∧
      ((mkAgent ⟨"A", "r", ["t1", "t2"], []⟩).execute
        (LLMRaw.received (some (ParsedJson.dict
          ⟨none, none, some "did work"⟩)))).2.2 = ["running", "completed"] ∧
      ((mkAgent ⟨"A", "r", ["t1", "t2"], []⟩).execute
        (LLMRaw.received (some (ParsedJson.dict
          ⟨none, none, some "did work"⟩)))).2.1 =
        Except.ok ⟨(Option.none).getD (mkAgent ⟨"A", "r", ["t1", "t2"], []⟩).name,
          (Option.none).getD "completed",
          (Option.some "did work").getD
            ((mkAgent ⟨"A", "r", ["t1", "t2"], []⟩).name ++
              " completed assigned tasks.")⟩) ∧
    (((mkAgent ⟨"A", "r", ["t1", "t2"], []⟩).execute
        (LLMRaw.received none)).1.status = "completed" ∧
      ((mkAgent ⟨"A", "r", ["t1", "t2"], []⟩).execute
        (LLMRaw.received none)).2.2 = ["running", "completed"] ∧
      ((mkAgent ⟨"A", "r", ["t1", "t2"], []⟩).execute
        (LLMRaw.received none)).2.1 =
        Except.ok ⟨(mkAgent ⟨"A", "r", ["t1", "t2"], []⟩).name, "completed",
          (mkAgent ⟨"A", "r", ["t1", "t2"], []⟩).name ++ " (" ++
            (mkAgent ⟨"A", "r", ["t1", "t2"], []⟩).role ++ ") completed: " ++
            String.intercalate ", "
              (mkAgent ⟨"A", "r", ["t1", "t2"], []⟩).responsibilities⟩) ∧
    (((mkAgent ⟨"A", "r", ["t1", "t2"], []⟩).execute
        (LLMRaw.received (some (ParsedJson.nonDict "list")))).1.status = "running" ∧
      ((mkAgent ⟨"A", "r", ["t1", "t2"], []⟩).execute
        (LLMRaw.received (some (ParsedJson.nonDict "list")))).2.1 =
        Except.error ("AttributeError: " ++ "list" ++
          " object has no attribute setdefault") ∧
      ((mkAgent ⟨"A", "r", ["t1", "t2"], []⟩).execute
        (LLMRaw.received (some (ParsedJson.nonDict "list")))).2.2 = ["running"]) ∧
    (((mkAgent ⟨"A", "r", ["t1", "t2"], []⟩).execute
        (LLMRaw.unreachable "down")).1.status = "running" ∧
      ((mkAgent ⟨"A", "r", ["t1", "t2"], []⟩).execute
        (LLMRaw.unreachable "down")).2.1 = Except.error "down" ∧
      ((mkAgent ⟨"A", "r", ["t1", "t2"], []⟩).execute
        (LLMRaw.unreachable "down")).2.2 = ["running"]) :=
  C7_agent_execute (mkAgent ⟨"A", "r", ["t1", "t2"], []⟩)
    ⟨none, none, some "did work"⟩ "down" "list"

/-- Witness for C10 at a concrete agent and a failing call. -/
theorem C10_status_values_witness :
    (mkAgent ⟨"A", "r", [], []⟩).status = "pending" ∧
    ((runAgent (mkAgent ⟨"A", "r", [], []⟩) [LLMRaw.unreachable "down"]).status =
        "pending" ∨
      (runAgent (mkAgent ⟨"A", "r", [], []⟩) [LLMRaw.unreachable "down"]).status =
        "running" ∨
      (runAgent (mkAgent ⟨"A", "r", [], []⟩) [LLMRaw.unreachable "down"]).status =
        "completed") ∧
    (runAgent (mkAgent ⟨"A", "r", [], []⟩) [LLMRaw.unreachable "down"]).status ≠
      "failed" ∧
    ((mkAgent ⟨"A", "r", [], []⟩).execute (LLMRaw.unreachable "down")).1.status =
      "running" ∧
    (∀ raw, ((mkAgent ⟨"A", "r", [], []⟩).execute raw).2.2 = ["running"] ∨
      ((mkAgent ⟨"A", "r", [], []⟩).execute raw).2.2 = ["running", "completed"]) :=
  C10_status_values ⟨"A", "r", [], []⟩ [LLMRaw.unreachable "down"]
    (mkAgent ⟨"A", "r", [], []⟩) "down"

end ODI
